import Mathlib

/-!
# Verification of the coding-agent core against its specification

This file gives a shallow embedding, in Lean 4, of the core data model and
algorithms of the coding-agent repository (agent loop with repetition
detection and history compaction, cost ledger, tool registry dispatch, the
line-oriented file tools, and the path sandbox), together with theorems
settling the specification claims about them.

Modelling conventions:
* TypeScript strings are modelled as Lean `String`s (sequences of Unicode
  scalar values; the sources only manipulate them at whole-character
  granularity, so the UTF-16 distinction is immaterial for every claim).
* JavaScript numbers are modelled as `Int` where the sources use integers
  and as `ℚ` in the cost ledger (the ledger only multiplies and adds
  decimal pricing constants).
* Optional TS fields become `Option`; a JS `undefined`/falsy test is
  modelled explicitly where the sources rely on truthiness.
* Asynchronous effects (file reads/writes, subprocesses, the provider) are
  modelled by explicit state passing; a potentially non-terminating loop is
  given fuel and returns `Option`, with `none` meaning divergence.
-/

namespace CodingAgent

/-! ## JSON values (the `Record<string, unknown>` argument maps) -/

/-- A JSON value, as carried in tool-call argument maps.  Numbers are
restricted to integers (every argument in the sources and tests is an
integer, a string, a boolean, `null`, an array or an object). -/
inductive JValue where
  | str : String → JValue
  | num : Int → JValue
  | jbool : Bool → JValue
  | jnull : JValue
  | arr : List JValue → JValue
  | obj : List (String × JValue) → JValue
deriving Repr

/-- JSON string quoting as performed by `JSON.stringify`: the backslash,
the double quote, and the common control characters are escaped; all other
characters are emitted verbatim (the claims only involve such strings). -/
def jsonQuoteChar (c : Char) : String :=
  if c = '"' then "\\\""
  else if c = '\\' then "\\\\"
  else if c = '\n' then "\\n"
  else if c = '\t' then "\\t"
  else if c = '\r' then "\\r"
  else String.singleton c

def jsonQuote (s : String) : String :=
  "\"" ++ String.join (s.data.map jsonQuoteChar) ++ "\""

/-- First binding of key `k` in a field list (JS property lookup; JS object
literals cannot carry duplicate keys, so the first match is the match). -/
def lookupField (fields : List (String × JValue)) (k : String) : JValue :=
  match fields.find? (fun p => p.1 = k) with
  | some p => p.2
  | none => JValue.jnull

/-- Insertion sort of strings, lexicographically: the model of
`Object.keys(args).sort()` (default `sort` compares strings). -/
def insertSorted (s : String) : List String → List String
  | [] => [s]
  | t :: ts => if s < t then s :: t :: ts else t :: insertSorted s ts

def sortStrings : List String → List String
  | [] => []
  | s :: ss => insertSorted s (sortStrings ss)

theorem sizeOf_lookupField (fields : List (String × JValue)) (k : String) :
    sizeOf (lookupField fields k) < 1 + sizeOf fields := by
  induction fields with
  | nil => simp [lookupField]
  | cons p ps ih =>
    by_cases h : p.1 = k
    · simp [lookupField, List.find?, h]
      cases p with
      | mk a b => simp at *; omega
    · simp only [lookupField, List.find?] at *
      rw [show (decide (p.1 = k)) = false by simpa using h]
      simp only []
      cases p with
      | mk a b =>
        simp only [Prod.mk.sizeOf_spec, List.cons.sizeOf_spec]
        omega

/-- `JSON.stringify(v, K)` where `K` is a replacer *array* (a
`PropertyList` in ECMA-262 terms): at **every** nesting depth, an object
serializes exactly those of its properties whose names occur in `K`, in
`K`'s order; arrays are not filtered. -/
def stringifyPL (K : List String) : JValue → String
  | .str s => jsonQuote s
  | .num n => toString n
  | .jbool b => cond b "true" "false"
  | .jnull => "null"
  | .arr xs =>
      "[" ++ String.intercalate "," (xs.attach.map (fun x => stringifyPL K x.1)) ++ "]"
  | .obj fields =>
      "\x7b" ++
        String.intercalate ","
          ((K.filter (fun k => fields.any (fun p => p.1 = k))).map
            (fun k => jsonQuote k ++ ":" ++ stringifyPL K (lookupField fields k))) ++
      "\x7d"
termination_by v => sizeOf v
decreasing_by
  all_goals simp_wf
  · have := List.sizeOf_lt_of_mem x.2; omega
  · exact sizeOf_lookupField _ _

/-- Canonical JSON as described by the specification: every object, at
every nesting depth, is serialized with its keys sorted lexicographically
and **all** of its values preserved.  (Argument maps have no duplicate
keys, so looking fields up by sorted key enumerates every field once.) -/
def canonicalJSON : JValue → String
  | .str s => jsonQuote s
  | .num n => toString n
  | .jbool b => cond b "true" "false"
  | .jnull => "null"
  | .arr xs =>
      "[" ++ String.intercalate "," (xs.attach.map (fun x => canonicalJSON x.1)) ++ "]"
  | .obj fields =>
      "\x7b" ++
        String.intercalate ","
          ((sortStrings (fields.map Prod.fst)).map
            (fun k => jsonQuote k ++ ":" ++ canonicalJSON (lookupField fields k))) ++
      "\x7d"
termination_by v => sizeOf v
decreasing_by
  all_goals simp_wf
  · have := List.sizeOf_lt_of_mem x.2; omega
  · exact sizeOf_lookupField _ _

/-! ## The agent data model (`provider.ts`) -/

/-- `ToolCall` of `provider.ts`: a name plus an argument map. -/
structure ToolCall where
  name : String
  arguments : List (String × JValue)
deriving Repr

/-- `ToolResult` of `provider.ts` (as built by the agent loop). -/
structure ToolResult where
  name : String
  result : String
  isError : Bool
deriving Repr, DecidableEq

inductive Role where
  | user | assistant | system | tool
deriving Repr, DecidableEq

/-- `LLMMessage` of `provider.ts`; the optional `toolCalls`/`toolResults`
arrays are modelled as lists defaulting to `[]`. -/
structure LLMMessage where
  role : Role
  content : String
  toolCalls : List ToolCall := []
  toolResults : List ToolResult := []
deriving Repr

inductive FinishReason where
  | stop | tool_calls | max_tokens | error
deriving Repr, DecidableEq

/-- `LLMResponse` of `provider.ts` (usage is irrelevant to transcript
claims and carried separately by the cost ledger model). -/
structure LLMResponse where
  content : String
  toolCalls : List ToolCall
  finishReason : FinishReason
deriving Repr

/-- `ToolExecutionResult` of `registry.ts` (`isError?: boolean` defaulting
to false). -/
structure ToolExecutionResult where
  output : String
  isError : Bool := false
deriving Repr, DecidableEq

/-! ## Fingerprints (`agent.ts`, `toolCallFingerprint`) -/

/-- `toolCallFingerprint` of `agent.ts`:
`` `${name}::${JSON.stringify(args, Object.keys(args).sort())}` ``.
The second argument of `JSON.stringify` is a replacer array holding the
sorted top-level keys of `args`. -/
def toolCallFingerprint (name : String) (args : List (String × JValue)) : String :=
  name ++ "::" ++ stringifyPL (sortStrings (args.map Prod.fst)) (JValue.obj args)

/-- The round fingerprint built in `Agent.processMessage`:
`response.toolCalls.map(tc => toolCallFingerprint(tc.name, tc.arguments)).join("|")`. -/
def roundFingerprint (calls : List ToolCall) : String :=
  String.intercalate "|" (calls.map (fun tc => toolCallFingerprint tc.name tc.arguments))

/-! ## History compaction (`agent.ts`, `Agent.compressHistory`) -/

instance : Inhabited LLMMessage := ⟨{ role := .user, content := "" }⟩

/-- `AgentConfig` of `agent.ts`. -/
structure AgentConfig where
  maxToolRounds : Nat
  verbose : Bool
  maxRepetitions : Nat
  historyWindowSize : Nat
deriving Repr

/-- Truncation of one tool result in the compaction fallback
(`MAX_TRUNCATED_LENGTH = 200`). -/
def truncateResult (tr : ToolResult) : ToolResult :=
  if 200 < tr.result.length then
    { tr with result := tr.result.take 200 ++ "... (truncated to save tokens)" }
  else tr

/-- The in-place mutation loop of the truncation fallback: each message
whose index is among the first `excess` tool-message indices gets its
tool results truncated. -/
def truncateAt (idxs : List Nat) : Nat → List LLMMessage → List LLMMessage
  | _, [] => []
  | i, m :: rest =>
    (if i ∈ idxs then { m with toolResults := m.toolResults.map truncateResult } else m)
      :: truncateAt idxs (i + 1) rest

/-- The single user-role message replacing the compressed prefix. -/
def contextMessage (summary : String) : LLMMessage :=
  { role := .user,
    content := "[Context from earlier in this conversation: " ++ summary ++ "]" }

/-- The tool-result message index scan at the top of
`Agent.compressHistory` (`toolMsgIndices`). -/
def toolMsgIndicesOf (history : List LLMMessage) : List Nat :=
  (List.range history.length).filter (fun i => (history.getD i default).role = .tool)

/-- `Agent.compressHistory`.  The optional summarizer and its possible
failure are modelled by `summarize` returning `none` (absent or thrown)
or `some summary` (success). -/
def compressHistory (windowSize : Nat)
    (summarize : List LLMMessage → Option String)
    (history : List LLMMessage) : List LLMMessage :=
  let toolMsgIndices := toolMsgIndicesOf history
  if toolMsgIndices.length ≤ windowSize then history  -- excess ≤ 0: no-op
  else
    let excess := toolMsgIndices.length - windowSize
    let lastExcessToolIdx := toolMsgIndices.getD (excess - 1) 0
    let cutoffIdx := min (lastExcessToolIdx + 1) history.length
    let oldMessages := history.take cutoffIdx
    match summarize oldMessages with
    | some summary => contextMessage summary :: history.drop cutoffIdx
    | none => truncateAt (toolMsgIndices.take excess) 0 history

/-! ## The agent loop (`agent.ts`, `Agent.processMessage`)

The provider is modelled as a function from the index of the LLM call
within the turn to its response (any sequence of provider responses), the
tool layer as a function from a tool call to its execution result (any
tool behavior; `ToolRegistry.execute` never throws, see `execute` below).
Verbose logging and cost recording touch neither the transcript nor
control flow and are omitted.  The `while (toolRound < maxToolRounds)`
loop is modelled by fuel `maxToolRounds - toolRound`, which exactly counts
the remaining permitted tool rounds. -/

def repetitionBrakeMessage : String :=
  "[SYSTEM] You are repeating the same tool calls. The task appears to be complete. " ++
  "Stop calling tools and provide your final response to the user summarizing what was accomplished."

def maxRoundsMessage : String :=
  "⚠️ Agent reached maximum tool rounds without completing. The task may be too complex for a single interaction."

def runLoop (cfg : AgentConfig) (provider : Nat → LLMResponse)
    (exec : ToolCall → ToolExecutionResult)
    (summarize : List LLMMessage → Option String) :
    Nat → Nat → List LLMMessage → String → Nat → List LLMMessage × String
  | 0, _, history, _, _ => (history, maxRoundsMessage)
  | fuel + 1, callIdx, history, lastFingerprint, repetitionCount =>
    let response := provider callIdx
    if response.finishReason = .tool_calls ∧ response.toolCalls.isEmpty = false then
      let fp := roundFingerprint response.toolCalls
      if fp = lastFingerprint ∧ cfg.maxRepetitions ≤ repetitionCount + 1 then
        -- repetition brake: inject a system note, force a text-only response
        let h1 := history ++ [{ role := .user, content := repetitionBrakeMessage }]
        let finalResponse := provider (callIdx + 1)
        (h1 ++ [{ role := .assistant, content := finalResponse.content }],
         finalResponse.content)
      else
        let lastFp' := if fp = lastFingerprint then lastFingerprint else fp
        let repCount' := if fp = lastFingerprint then repetitionCount + 1 else 0
        let toolResults := response.toolCalls.map (fun tc =>
          let result := exec tc
          ToolResult.mk tc.name result.output result.isError)
        let h := history ++
          [{ role := .assistant, content := response.content,
             toolCalls := response.toolCalls },
           { role := .tool, content := "", toolResults := toolResults }]
        runLoop cfg provider exec summarize fuel (callIdx + 1)
          (compressHistory cfg.historyWindowSize summarize h) lastFp' repCount'
    else
      (history ++ [{ role := .assistant, content := response.content }],
       response.content)

/-- `Agent.processMessage`: append the user message, then run the loop.
Returns the final conversation history and the returned text. -/
def processMessage (cfg : AgentConfig) (provider : Nat → LLMResponse)
    (exec : ToolCall → ToolExecutionResult)
    (summarize : List LLMMessage → Option String)
    (history : List LLMMessage) (userMessage : String) :
    List LLMMessage × String :=
  runLoop cfg provider exec summarize cfg.maxToolRounds 0
    (history ++ [{ role := .user, content := userMessage }]) "" 0

/-! ## The transcript pairing invariant (spec §3, invariant 1) -/

/-- The tool results of a *ToolResultBatch* match the tool calls of the
preceding *Assistant* message: same length, and the i-th result carries
the name of the i-th call. -/
def resultsMatch (tcs : List ToolCall) (trs : List ToolResult) : Bool :=
  trs.length = tcs.length && (List.zip tcs trs).all (fun p => p.2.name = p.1.name)

/-- Every *Assistant* message with a non-empty `toolCalls` list is
immediately followed by a tool-role message whose `toolResults` match by
index. -/
def pairedOk : List LLMMessage → Bool
  | [] => true
  | m :: rest =>
    if m.role = .assistant ∧ m.toolCalls.isEmpty = false then
      match rest with
      | [] => false
      | m2 :: _ =>
        (m2.role = .tool) && resultsMatch m.toolCalls m2.toolResults && pairedOk rest
    else pairedOk rest

/-! ## Cost ledger (`cost-tracker.ts`)

Dollar amounts are modelled as exact rationals; the sources only add and
multiply decimal constants.  The `timestamp: Date.now()` field is wall
clock I/O and is omitted from the model. -/

/-- `ModelPricing` of `cost-tracker.ts` (dollars per million tokens). -/
structure ModelPricing where
  inputPerMillion : ℚ
  outputPerMillion : ℚ
  longContextThreshold : Option Nat := none
  longContextInputPerMillion : Option ℚ := none
  longContextOutputPerMillion : Option ℚ := none
deriving Repr

/-- The `MODEL_PRICING` table. -/
def MODEL_PRICING (model : String) : Option ModelPricing :=
  if model = "gemini-2.5-pro" then
    some { inputPerMillion := 1.25, outputPerMillion := 10.0,
           longContextThreshold := some 200000,
           longContextInputPerMillion := some 2.5,
           longContextOutputPerMillion := some 15.0 }
  else if model = "gemini-2.5-flash" then
    some { inputPerMillion := 0.15, outputPerMillion := 0.60,
           longContextThreshold := some 200000,
           longContextInputPerMillion := some 0.30,
           longContextOutputPerMillion := some 1.20 }
  else if model = "gemini-2.0-flash" then
    some { inputPerMillion := 0.10, outputPerMillion := 0.40 }
  else none

/-- The constructor's pricing selection:
`MODEL_PRICING[model] || MODEL_PRICING["gemini-2.5-pro"]` (an object is
always truthy, so only a missing key falls back). -/
def trackerPricing (model : String) : ModelPricing :=
  (MODEL_PRICING model).getD
    { inputPerMillion := 1.25, outputPerMillion := 10.0,
      longContextThreshold := some 200000,
      longContextInputPerMillion := some 2.5,
      longContextOutputPerMillion := some 15.0 }

/-- `UsageEntry` (without the wall-clock timestamp). -/
structure UsageEntry where
  inputTokens : Nat
  outputTokens : Nat
  cost : ℚ
deriving Repr, DecidableEq

instance : Inhabited UsageEntry := ⟨⟨0, 0, 0⟩⟩

/-- The mutable fields of a `CostTracker`. -/
structure TrackerState where
  entries : List UsageEntry := []
  totalInputTokens : Nat := 0
  totalOutputTokens : Nat := 0
  totalCost : ℚ := 0
  cumulativeInputTokens : Nat := 0
deriving Repr

/-- JS truthiness of the optional numeric `longContextThreshold` field
(`undefined` and `0` are falsy). -/
def thresholdTruthy : Option Nat → Bool
  | none => false
  | some t => decide (t ≠ 0)

/-- `CostTracker.recordUsage`. -/
def recordUsage (pricing : ModelPricing) (st : TrackerState)
    (inputTokens outputTokens : Nat) : TrackerState × UsageEntry :=
  let cumulative := st.cumulativeInputTokens + inputTokens
  let useLong := thresholdTruthy pricing.longContextThreshold &&
    decide (pricing.longContextThreshold.getD 0 < cumulative)
  let inputRate := if useLong then
      pricing.longContextInputPerMillion.getD pricing.inputPerMillion
    else pricing.inputPerMillion
  let outputRate := if useLong then
      pricing.longContextOutputPerMillion.getD pricing.outputPerMillion
    else pricing.outputPerMillion
  let cost := (inputTokens : ℚ) / 1000000 * inputRate +
    (outputTokens : ℚ) / 1000000 * outputRate
  let entry : UsageEntry := ⟨inputTokens, outputTokens, cost⟩
  ({ entries := st.entries ++ [entry],
     totalInputTokens := st.totalInputTokens + inputTokens,
     totalOutputTokens := st.totalOutputTokens + outputTokens,
     totalCost := st.totalCost + cost,
     cumulativeInputTokens := cumulative }, entry)

/-- A sequence of `recordUsage` calls from a given state. -/
def recordAll (pricing : ModelPricing) (st : TrackerState) :
    List (Nat × Nat) → TrackerState
  | [] => st
  | (i, o) :: rest => recordAll pricing (recordUsage pricing st i o).1 rest

/-! ## Tool registry dispatch (`registry.ts`, `ToolRegistry.execute`)

A registered executor is modelled as a function from the argument map to
`Except String ToolExecutionResult`; `Except.error msg` models the
executor throwing an error whose message is `msg`
(`error instanceof Error ? error.message : String(error)`). -/

def ToolExec : Type :=
  List (String × JValue) → Except String ToolExecutionResult

/-- The registry's `Map<string, Tool>`: an insertion-ordered association
list with unique names. -/
def Registry : Type := List (String × ToolExec)

/-- `ToolRegistry.listNames` (Map iteration order). -/
def listNames (reg : Registry) : List String := reg.map Prod.fst

/-- `ToolRegistry.execute`: total — an unknown name or a throwing executor
is reified into an error result, never an exception. -/
def execute (reg : Registry) (name : String) (args : List (String × JValue)) :
    ToolExecutionResult :=
  match reg.find? (fun p => p.1 = name) with
  | none =>
    { output := "Error: Unknown tool \"" ++ name ++ "\". Available tools: " ++
        String.intercalate ", " (listNames reg),
      isError := true }
  | some t =>
    match t.2 args with
    | .ok result => result
    | .error message =>
      { output := "Error executing tool \"" ++ name ++ "\": " ++ message,
        isError := true }

/-! ## Line splitting and JS string/array primitives

The file tools all run `content.split("\n")` and `join("\n")`.  These are
modelled on `List Char` (the character data of the content). -/

/-- `content.split("\n")` (single-character separator): the empty string
yields `[""]`; every element is newline-free. -/
def splitNl : List Char → List (List Char)
  | [] => [[]]
  | c :: cs =>
    if c = '\n' then [] :: splitNl cs
    else
      match splitNl cs with
      | [] => [[c]]
      | l :: ls => (c :: l) :: ls

/-- `lines.join("\n")`. -/
def joinNl (ls : List (List Char)) : List Char :=
  List.intercalate ['\n'] ls

/-- `String.prototype.indexOf(pat, fromIdx)` (ECMA-262): the position is
clamped to `[0, length]`, then the least index at which `pat` occurs is
returned (`none` models `-1`).  An empty `pat` matches at the clamped
position itself. -/
def jsIndexOf (s pat : List Char) (fromIdx : Nat) : Option Nat :=
  ((List.range (s.length + 1)).filter
    (fun k => decide (min fromIdx s.length ≤ k) && pat.isPrefixOf (s.drop k))).head?

/-- `Array.prototype.slice(a, b)`: negative indices count from the end,
then both are clamped to `[0, length]`. -/
def jsSlice {α : Type} (l : List α) (a b : Int) : List α :=
  let len : Int := l.length
  let s := if a < 0 then max (len + a) 0 else min a len
  let e := if b < 0 then max (len + b) 0 else min b len
  (l.take e.toNat).drop s.toNat

/-! ## `read_file` (`read-file.ts`) -/

/-- `readFileTool.execute`, given the content of an existing regular file.
`startArg`/`endArg` model the raw `args.start_line`/`args.end_line`
values; the source tests them with `args.start_line ? … : undefined`, so
an explicit `0` is falsy and behaves like an absent argument. -/
def readFileExecute (filePath content : String) (startArg endArg : Option Int) :
    ToolExecutionResult :=
  let startLine : Option Int :=
    match startArg with
    | some v => if v = 0 then none else some v
    | none => none
  let endLine : Option Int :=
    match endArg with
    | some v => if v = 0 then none else some v
    | none => none
  let lines := splitNl content.data
  let totalLines := lines.length
  let start : Int := match startLine with | some s => max 1 s | none => 1
  let stop : Int := match endLine with | some e => min (totalLines : Int) e | none => totalLines
  let selectedLines := jsSlice lines (start - 1) stop
  let numberedLines := String.intercalate "\n"
    (selectedLines.mapIdx (fun i l => toString (start + i) ++ ": " ++ String.mk l))
  let header := "File: " ++ filePath ++ " (" ++ toString totalLines ++
    " lines total, showing " ++ toString start ++ "-" ++ toString stop ++ ")"
  { output := header ++ "\n" ++ numberedLines }

/-! ## `edit_file` (`edit-file.ts`) -/

/-- The occurrence-counting `while (true)` loop of `searchAndReplace`,
with fuel: `none` models non-termination of the source loop (which never
exits when `oldText` is empty, because `indexOf("", i)` clamps `i` to the
string length and never returns `-1`). -/
def countOccAux (content old : List Char) : Nat → Nat → Nat → Option Nat
  | 0, _, _ => none
  | fuel + 1, searchFrom, count =>
    match jsIndexOf content old searchFrom with
    | none => some count
    | some idx => countOccAux content old fuel (idx + 1) (count + 1)

/-- The occurrence count computed by `searchAndReplace`.  For a non-empty
`old` the loop makes at most `|content| + 2` iterations, so this fuel is
exact (`countOccurrences_eq_some` below); for an empty `old` every fuel is
exhausted. -/
def countOccurrences (content old : String) : Option Nat :=
  countOccAux content.data old.data (content.data.length + 2) 0 0

/-- ECMA-262 `GetSubstitution` for a string (capture-free) search:
`$$`, `$&`, `` $` `` and `$'` are active in the replacement template;
a `$` followed by anything else is literal. -/
def getSubstitution (matched before after : String) : List Char → String
  | [] => ""
  | '$' :: c :: rest =>
    if c = '$' then "$" ++ getSubstitution matched before after rest
    else if c = '&' then matched ++ getSubstitution matched before after rest
    else if c = Char.ofNat 96 then before ++ getSubstitution matched before after rest
    else if c = '\'' then after ++ getSubstitution matched before after rest
    else "$" ++ String.singleton c ++ getSubstitution matched before after rest
  | c :: rest => String.singleton c ++ getSubstitution matched before after rest

/-- `content.replace(oldText, newText)` with a string search pattern:
replaces the first occurrence, applying `GetSubstitution` to the
replacement; no match returns the content unchanged. -/
def jsReplaceFirst (content old new : String) : String :=
  match jsIndexOf content.data old.data 0 with
  | none => content
  | some idx =>
    let before := String.mk (content.data.take idx)
    let after := String.mk (content.data.drop (idx + old.data.length))
    before ++ getSubstitution old before after new.data ++ after

/-- The not-found `EditError` message (with the 200-character preview in
which newlines are rewritten to `\n`). -/
def notFoundMessage (filePath content : String) : String :=
  let preview := String.join ((content.data.take 200).map
    (fun c => if c = '\n' then "\\n" else String.singleton c))
  "Edit failed: old_text not found in " ++ filePath ++ ".\n" ++
  "Make sure the text matches exactly (including whitespace and indentation).\n" ++
  "File starts with: \"" ++ preview ++ "...\""

/-- The multiple-match `EditError` message. -/
def foundTimesMessage (filePath : String) (count : Nat) : String :=
  "Edit failed: old_text found " ++ toString count ++ " times in " ++ filePath ++ ".\n" ++
  "Provide more surrounding context in old_text to make it unique."

/-- `searchAndReplace` of `edit-file.ts`: `Except.error` models a thrown
`EditError`; the outer `none` models non-termination of the counting
loop. -/
def searchAndReplace (content old new filePath : String) :
    Option (Except String String) :=
  match countOccurrences content old with
  | none => none
  | some count =>
    if count = 0 then some (.error (notFoundMessage filePath content))
    else if 1 < count then some (.error (foundTimesMessage filePath count))
    else some (.ok (jsReplaceFirst content old new))

/-- `lineRangeReplace` of `edit-file.ts`. -/
def lineRangeReplace (content : String) (startLine endLine : Int)
    (newText filePath : String) : Except String String :=
  let lines := splitNl content.data
  let totalLines : Int := lines.length
  if startLine < 1 ∨ endLine < startLine ∨ totalLines < startLine then
    .error ("Edit failed: invalid line range " ++ toString startLine ++ "-" ++
      toString endLine ++ " (file has " ++ toString totalLines ++ " lines).")
  else
    let clampedEnd := min endLine totalLines
    let before := lines.take (startLine - 1).toNat
    let after := lines.drop clampedEnd.toNat
    let newLines := if 0 < newText.length then splitNl newText.data else []
    .ok (String.mk (joinNl (before ++ newLines ++ after)))

/-- The success message of `editFileTool.execute`. -/
def editSuccessMessage (filePath content updatedContent : String) : String :=
  let oldLines : Int := (splitNl content.data).length
  let newLines : Int := (splitNl updatedContent.data).length
  let diff := newLines - oldLines
  let diffStr := if diff = 0 then "same line count"
    else if 0 < diff then "+" ++ toString diff ++ " lines"
    else toString diff ++ " lines"
  "Successfully edited " ++ filePath ++ " (" ++ diffStr ++ ", now " ++
    toString newLines ++ " lines total)"

/-- `editFileTool.execute`, given the content of an existing regular file.
Returns the tool result together with the content of the file after the
call (`writeFile` happens only on success); `none` models the
non-terminating counting loop. -/
def editFileExecute (filePath content : String) (oldText : Option String)
    (newText : String) (startLine endLine : Option Int) :
    Option (ToolExecutionResult × String) :=
  match oldText with
  | some old =>
    match searchAndReplace content old newText filePath with
    | none => none
    | some (.error msg) => some ({ output := msg, isError := true }, content)
    | some (.ok updatedContent) =>
      some ({ output := editSuccessMessage filePath content updatedContent },
        updatedContent)
  | none =>
    match startLine, endLine with
    | some s, some e =>
      match lineRangeReplace content s e newText filePath with
      | .error msg => some ({ output := msg, isError := true }, content)
      | .ok updatedContent =>
        some ({ output := editSuccessMessage filePath content updatedContent },
          updatedContent)
    | _, _ =>
      some ({ output := "Error: Must provide either `old_text` (search & replace) or " ++
          "`start_line` + `end_line` (line range replace).", isError := true }, content)

/-! ## `insert_lines` and `delete_lines` -/

/-- `insertLinesTool.execute`, given the content of an existing regular
file; returns the result and the file content afterwards. -/
def insertLinesExecute (filePath content : String) (lineNum : Int)
    (insertContent : String) : ToolExecutionResult × String :=
  let lines := splitNl content.data
  let insertLines := splitNl insertContent.data
  let insertCount := insertLines.length
  if lineNum = 0 then
    let result := insertLines ++ lines
    ({ output := "Inserted " ++ toString insertCount ++ " line(s) at position " ++
        toString lineNum ++ " in " ++ filePath ++ " (now " ++
        toString result.length ++ " lines)" },
      String.mk (joinNl result))
  else if lineNum = -1 then
    let result := lines ++ insertLines
    ({ output := "Inserted " ++ toString insertCount ++ " line(s) at position " ++
        toString lineNum ++ " in " ++ filePath ++ " (now " ++
        toString result.length ++ " lines)" },
      String.mk (joinNl result))
  else if 1 ≤ lineNum ∧ lineNum ≤ lines.length + 1 then
    let result := lines.take (lineNum - 1).toNat ++ insertLines ++
      lines.drop (lineNum - 1).toNat
    ({ output := "Inserted " ++ toString insertCount ++ " line(s) at position " ++
        toString lineNum ++ " in " ++ filePath ++ " (now " ++
        toString result.length ++ " lines)" },
      String.mk (joinNl result))
  else
    ({ output := "Error: line " ++ toString lineNum ++ " is out of range (file has " ++
        toString lines.length ++ " lines, valid: 0, -1, or 1-" ++
        toString (lines.length + 1) ++ ")", isError := true }, content)

/-- `deleteLinesTool.execute`, given the content of an existing regular
file; returns the result and the file content afterwards. -/
def deleteLinesExecute (filePath content : String) (startLine endLine : Int) :
    ToolExecutionResult × String :=
  let lines := splitNl content.data
  let totalLines : Int := lines.length
  if startLine < 1 ∨ endLine < startLine ∨ totalLines < startLine then
    ({ output := "Error: invalid line range " ++ toString startLine ++ "-" ++
        toString endLine ++ " (file has " ++ toString totalLines ++ " lines)",
       isError := true }, content)
  else
    let clampedEnd := min endLine totalLines
    let deletedCount := clampedEnd - startLine + 1
    let result := lines.take (startLine - 1).toNat ++ lines.drop clampedEnd.toNat
    ({ output := "Deleted " ++ toString deletedCount ++ " line(s) from " ++ filePath ++
        " (was " ++ toString totalLines ++ ", now " ++ toString result.length ++
        " lines)" },
      String.mk (joinNl result))

/-! ## Path sandbox (`safety.ts`, `isWithinWorkingDirectory`)

Node's `path.resolve` and `path.relative` (POSIX rules) are modelled on
paths represented as a flag for absoluteness plus the list of `/`-split
segments.  `PROJECT_ROOT = cwd()` is an absolute, already-normalized
segment list captured at process start; `resolve` resolves against it. -/

/-- A raw file path: absolute or relative, split at `/`.  Segments may be
`""`, `"."` or `".."`; they never contain a slash. -/
structure RawPath where
  absolute : Bool
  segs : List String
deriving Repr

/-- Path normalization: drop empty and `"."` segments, let `".."` pop
(at the root, `".."` stays at the root, as in POSIX `path.resolve`). -/
def normSegs (acc : List String) : List String → List String
  | [] => acc
  | s :: rest =>
    if s = "" ∨ s = "." then normSegs acc rest
    else if s = ".." then normSegs acc.dropLast rest
    else normSegs (acc ++ [s]) rest

/-- `path.resolve(p)` with the process cwd `root`: an absolute result as a
normalized segment list. -/
def resolvePath (root : List String) (p : RawPath) : List String :=
  if p.absolute then normSegs [] p.segs else normSegs [] (root ++ p.segs)

/-- Length of the common segment prefix of two paths. -/
def commonPrefixLen : List String → List String → Nat
  | a :: as, b :: bs => if a = b then 1 + commonPrefixLen as bs else 0
  | _, _ => 0

/-- `path.relative(fromP, toP)` for absolute normalized POSIX paths:
enough `..` segments to climb out of the non-shared part of `fromP`,
followed by the non-shared part of `toP`, joined with `/`. -/
def relativePath (fromP toP : List String) : String :=
  let n := commonPrefixLen fromP toP
  String.mk (List.intercalate ['/']
    ((List.replicate (fromP.length - n) ".." ++ toP.drop n).map String.data))

/-- `String.prototype.startsWith`. -/
def jsStartsWith (s pre : String) : Bool :=
  pre.data.isPrefixOf s.data

/-- `isWithinWorkingDirectory` of `safety.ts`, with the captured
`PROJECT_ROOT` made explicit:
`resolve` the path, take `relative(PROJECT_ROOT, absPath)`, and admit it
iff the relative path starts neither with `".."` nor with `"/"`. -/
def isWithinWorkingDirectory (root : List String) (p : RawPath) : Bool :=
  let absPath := resolvePath root p
  let relPath := relativePath root absPath
  !(jsStartsWith relPath "..") && !(jsStartsWith relPath "/")

/-- The specification's admission predicate: the absolute normalization of
the path is the project root itself or a descendant of it. -/
def isDescendantOrEqual (root : List String) (p : RawPath) : Bool :=
  root.isPrefixOf (resolvePath root p)

/-! ## Specification-side comparison definitions -/

/-- The round fingerprint as the specification words it:
`join("|", [name + "::" + canonicalJSON(args)])` with `canonicalJSON`
sorting keys at every depth and preserving all values. -/
def specRoundFingerprint (calls : List ToolCall) : String :=
  String.intercalate "|"
    (calls.map (fun tc => tc.name ++ "::" ++ canonicalJSON (.obj tc.arguments)))

/-- The number of occurrences of `old` in `content` in the ordinary sense:
the number of positions at which `old` matches (occurrences may overlap,
exactly as counted by the `indexOf`/`idx + 1` loop of the source). -/
def specOccurrences (content old : String) : Nat :=
  ((Finset.range (content.data.length + 1)).filter
    (fun k => old.data.isPrefixOf (content.data.drop k) = true)).card


/-! # Claims -/

theorem jsSlice_natCast_to_len {α : Type} (l : List α) (a : Nat) :
    jsSlice l (a : Int) (l.length : Int) = l.drop a := by
  simp only [jsSlice]
  rw [if_neg (by omega), if_neg (by omega), min_self]
  rw [Int.toNat_natCast, List.take_length]
  rcases le_total a l.length with h | h
  · rw [min_eq_left (by exact_mod_cast h)]
    simp
  · rw [min_eq_right (by exact_mod_cast h)]
    rw [Int.toNat_natCast]
    rw [List.drop_eq_nil_of_le le_rfl, List.drop_eq_nil_of_le h]

/-- **C10.** For `read_file`, a `start_line` argument equal to 0 is treated
as if absent (the displayed range starts at line 1) and an `end_line`
argument equal to 0 is treated as if absent (the displayed range extends to
the last line), rather than being clamped into `[1, N]` or rejected; in
particular `read_file(path, start_line=5, end_line=0)` returns lines 5
through N (numbered from 5, with the header reporting `showing 5-N`). -/
theorem C10_read_file_zero_line_args_treated_as_absent :
    (∀ (filePath content : String) (endArg : Option Int),
      readFileExecute filePath content (some 0) endArg =
        readFileExecute filePath content none endArg) ∧
    (∀ (filePath content : String) (startArg : Option Int),
      readFileExecute filePath content startArg (some 0) =
        readFileExecute filePath content startArg none) ∧
    (∀ (filePath content : String),
      readFileExecute filePath content (some 5) (some 0) =
        { output := ("File: " ++ filePath ++ " (" ++
            toString (splitNl content.data).length ++ " lines total, showing " ++
            toString (5 : Int) ++ "-" ++
            toString (((splitNl content.data).length : Int)) ++ ")") ++ "\n" ++
            String.intercalate "\n" (((splitNl content.data).drop 4).mapIdx
              (fun i l => toString ((5 : Int) + i) ++ ": " ++ String.mk l)) }) := by
  refine ⟨fun f c e => rfl, fun f c s => rfl, fun f c => ?_⟩
  show readFileExecute f c (some 5) (some 0) = _
  unfold readFileExecute
  simp only [show ((5:Int) = 0) = False by simp, if_false, if_true,
    show ((1:Int) ⊔ 5) = 5 by decide]
  rw [show (5:Int) - 1 = ((4:Nat):Int) by decide]
  rw [jsSlice_natCast_to_len (splitNl c.data) 4]

/-- **C6.** For every tool name and argument map, `ToolRegistry.execute`
returns a result and never propagates an exception (the model `execute` is
a total function into `ToolExecutionResult`; a throwing executor is the
`Except.error` case): if the name is not registered, the result has
`isError = true` and its output lists all registered tool names; if the
registered executor throws, the result has `isError = true` and its output
contains the thrown error's message. -/
theorem C6_registry_execute_reifies_errors :
    ∀ (reg : Registry) (name : String) (args : List (String × JValue)),
      (reg.find? (fun p => p.1 = name) = none →
        execute reg name args =
          { output := "Error: Unknown tool \"" ++ name ++ "\". Available tools: " ++
              String.intercalate ", " (listNames reg),
            isError := true }) ∧
      (∀ (t : String × ToolExec) (msg : String),
        reg.find? (fun p => p.1 = name) = some t → t.2 args = .error msg →
        (execute reg name args).isError = true ∧
        (execute reg name args).output =
          "Error executing tool \"" ++ name ++ "\": " ++ msg ∧
        ∃ pre post, (execute reg name args).output = pre ++ msg ++ post) := by
  intro reg name args
  constructor
  · intro h
    unfold execute
    rw [h]
  · intro t msg h1 h2
    unfold execute
    rw [h1]
    dsimp only
    rw [h2]
    exact ⟨rfl, rfl, "Error executing tool \"" ++ name ++ "\": ", "", by simp⟩

theorem C6_registry_execute_reifies_errors_witness :
    execute [("echo", fun _ => Except.error "boom")] "missing" [] =
      { output := "Error: Unknown tool \"missing\". Available tools: echo",
        isError := true } ∧
    (execute [("echo", fun _ => Except.error "boom")] "echo" []).isError = true ∧
    (execute [("echo", fun _ => Except.error "boom")] "echo" []).output =
      "Error executing tool \"echo\": boom" := by
  have h1 := (C6_registry_execute_reifies_errors
    [("echo", fun _ => Except.error "boom")] "missing" []).1 rfl
  have h2 := (C6_registry_execute_reifies_errors
    [("echo", fun _ => Except.error "boom")] "echo" []).2
    ("echo", fun _ => Except.error "boom") "boom" rfl rfl
  refine ⟨?_, h2.1, ?_⟩
  · rw [h1]; rfl
  · rw [h2.2.1]; rfl

/-- **C2.** The claim states that every mutating tool invocation passes
its safety check before any effect (edit-tool safety being the path
sandbox).  The code contradicts this and its own documentation
(`safety.ts` declares the directory sandbox for "all file writes/edits",
and `checkEditSafety` names `edit_file` in its doc comment, but
`editFileTool.execute` never invokes any safety function): here a file
outside the project root is edited successfully — the result is not an
error and the file content changes — even though the sandbox predicate
rejects the path and the confirmation handler was never consulted. -/
theorem C2_edit_file_mutates_outside_sandbox_without_check :
    isWithinWorkingDirectory ["home", "project"] ⟨true, ["tmp", "evil.ts"]⟩ = false ∧
    (editFileExecute "/tmp/evil.ts" "const x = 1;\n" (some "x = 1") "x = 2"
        none none).map (fun p => (p.1.isError, p.2)) =
      some (false, "const x = 2;\n") := by
  constructor
  · rfl
  · rfl

/-- **C3 counterexample.** The fingerprint actually computed by the agent
disagrees with the claimed `join("|", name + "::" + canonicalJSON(args))`
on a call with one nested object argument: `JSON.stringify`'s replacer
array drops the nested key `"path"`, which is not among the top-level
argument names. -/
theorem C3_counterexample_nested_keys_dropped :
    roundFingerprint [⟨"write_file", [("opts", .obj [("path", .str "a.ts")])]⟩] ≠
      specRoundFingerprint [⟨"write_file", [("opts", .obj [("path", .str "a.ts")])]⟩] := by
  simp [roundFingerprint, specRoundFingerprint, toolCallFingerprint, stringifyPL,
    canonicalJSON, sortStrings, insertSorted, lookupField, jsonQuote, List.find?,
    List.filter]
  decide

/-- **C7 counterexample.** With `old_text = ""` (which occurs exactly once
in the empty file, at position 0), the claim demands a returned result;
the source's occurrence-counting loop never terminates instead —
`"".indexOf("", i)` clamps `i` and never returns `-1` — modelled by the
execution returning `none` at every fuel. -/
theorem C7_counterexample_empty_old_text_diverges :
    specOccurrences "" "" = 1 ∧
    (editFileExecute "f.ts" "" (some "") "x" none none).isNone = true := by
  constructor
  · rfl
  · rfl

/-- **C8 counterexample.** Deleting the whole file (`start_line = 1`,
`end_line = N`) and re-inserting the deleted lines does not restore the
file: the emptied file re-parses as one empty line, so the round trip
appends a spurious trailing newline (`"a"` becomes `"a\n"`). -/
theorem C8_counterexample_whole_file_range :
    (1 : Int) ≤ 1 ∧ (1 : Int) ≤ 1 ∧ (splitNl ("a" : String).data).length = 1 ∧
    (insertLinesExecute "f.txt" (deleteLinesExecute "f.txt" "a" 1 1).2 1
      (String.mk (joinNl (((splitNl ("a" : String).data).drop 0).take 1)))).2 = "a\n" := by
  refine ⟨by decide, by decide, rfl, rfl⟩

/-- **C9 counterexample.** A genuine descendant of the project root whose
first segment below the root itself begins with the two characters `..`
(here a child named `"..cache"`) is rejected by
`isWithinWorkingDirectory`, because `relative(root, path)` is the string
`"..cache"`, which starts with `".."`. -/
theorem C9_counterexample_descendant_starting_with_dots :
    isDescendantOrEqual ["home", "project"] ⟨true, ["home", "project", "..cache"]⟩ = true ∧
    isWithinWorkingDirectory ["home", "project"] ⟨true, ["home", "project", "..cache"]⟩ = false := by
  constructor
  · rfl
  · rfl

/-- Auxiliary: the entries produced by a run of `recordUsage` calls,
parameterized by the cumulative input-token counter at the start. -/
def entriesAux (p : ModelPricing) : Nat → List (Nat × Nat) → List UsageEntry
  | _, [] => []
  | cum, (i, o) :: rest =>
    (recordUsage p { cumulativeInputTokens := cum } i o).2 :: entriesAux p (cum + i) rest

theorem recordAll_entries (p : ModelPricing) :
    ∀ (calls : List (Nat × Nat)) (st : TrackerState),
      (recordAll p st calls).entries =
        st.entries ++ entriesAux p st.cumulativeInputTokens calls := by
  intro calls
  induction calls with
  | nil => intro st; simp [recordAll, entriesAux]
  | cons c rest ih =>
    intro st
    obtain ⟨i, o⟩ := c
    rw [show recordAll p st ((i, o) :: rest) = recordAll p (recordUsage p st i o).1 rest from rfl]
    rw [ih]
    simp [recordUsage, entriesAux]

theorem entriesAux_getD (p : ModelPricing) :
    ∀ (calls : List (Nat × Nat)) (cum i : Nat), i < calls.length →
      (entriesAux p cum calls).getD i default =
        (recordUsage p
          { cumulativeInputTokens := cum + ((calls.take i).map Prod.fst).sum }
          (calls.getD i (0, 0)).1 (calls.getD i (0, 0)).2).2 := by
  intro calls
  induction calls with
  | nil => intro cum i h; simp at h
  | cons c rest ih =>
    intro cum i h
    obtain ⟨a, b⟩ := c
    cases i with
    | zero => simp [entriesAux]
    | succ j =>
      simp only [entriesAux, List.getD_cons_succ, List.take_succ_cons, List.map_cons,
        List.sum_cons]
      rw [ih (cum + a) j (by simpa using h)]
      rw [Nat.add_assoc]

theorem trackerPricing_threshold (model : String) (t : Nat)
    (h : (trackerPricing model).longContextThreshold = some t) : t = 200000 := by
  unfold trackerPricing MODEL_PRICING at h
  by_cases h1 : model = "gemini-2.5-pro"
  · simp [h1] at h; omega
  · by_cases h2 : model = "gemini-2.5-flash"
    · simp [h1, h2] at h; omega
    · by_cases h3 : model = "gemini-2.0-flash"
      · simp [h1, h2, h3] at h
      · simp [h1, h2, h3] at h; omega

theorem sum_take_succ (calls : List (Nat × Nat)) (i : Nat) (h : i < calls.length) :
    ((calls.take (i + 1)).map Prod.fst).sum =
      ((calls.take i).map Prod.fst).sum + (calls.getD i (0, 0)).1 := by
  rw [List.take_succ, List.getElem?_eq_getElem h, List.map_append, List.sum_append]
  simp [List.getD_eq_getElem?_getD, List.getElem?_eq_getElem h]

/-- **C5.** For every sequence of `recordUsage(in, out)` calls on a
`CostTracker` whose pricing profile defines `longContextThreshold` (every
constructible profile's threshold is `200000`, hence truthy), the i-th
call is priced with the long-context rates iff the sum of input tokens
over calls `1..i` (including the call being priced) strictly exceeds the
threshold, and the call's cost is `in/10^6` times the selected input rate
plus `out/10^6` times the selected output rate; in particular for the
`gemini-2.5-pro` profile `(1.25, 10.0, threshold 200000, long 2.5/15.0)`,
`recordUsage(150000, 1000)` is priced at base rates and the following
`recordUsage(100000, 1000)` at long-context rates. -/
theorem C5_cost_tier_selection :
    (∀ (model : String) (t : Nat),
      (trackerPricing model).longContextThreshold = some t →
      ∀ (calls : List (Nat × Nat)) (i : Nat), i < calls.length →
        (recordAll (trackerPricing model) {} calls).entries.getD i default =
          { inputTokens := (calls.getD i (0, 0)).1,
            outputTokens := (calls.getD i (0, 0)).2,
            cost := ((calls.getD i (0, 0)).1 : ℚ) / 1000000 *
                (if t < ((calls.take (i + 1)).map Prod.fst).sum then
                  (trackerPricing model).longContextInputPerMillion.getD
                    (trackerPricing model).inputPerMillion
                 else (trackerPricing model).inputPerMillion) +
              ((calls.getD i (0, 0)).2 : ℚ) / 1000000 *
                (if t < ((calls.take (i + 1)).map Prod.fst).sum then
                  (trackerPricing model).longContextOutputPerMillion.getD
                    (trackerPricing model).outputPerMillion
                 else (trackerPricing model).outputPerMillion) }) ∧
    ((recordAll (trackerPricing "gemini-2.5-pro") {}
        [(150000, 1000), (100000, 1000)]).entries.map UsageEntry.cost =
      [(150000 : ℚ) / 1000000 * 1.25 + (1000 : ℚ) / 1000000 * 10,
       (100000 : ℚ) / 1000000 * 2.5 + (1000 : ℚ) / 1000000 * 15]) := by
  constructor
  · intro model t ht calls i h
    have ht' := trackerPricing_threshold model t ht
    rw [recordAll_entries]
    rw [List.nil_append, entriesAux_getD _ calls 0 i h]
    have hsum := sum_take_succ calls i h
    simp only [List.map_take, List.getD_eq_getElem?_getD] at hsum
    subst ht'
    by_cases hlt : 200000 < (List.take i (List.map Prod.fst calls)).sum + (calls[i]?.getD 0).1
    · simp [recordUsage, ht, thresholdTruthy, List.map_take, List.getD_eq_getElem?_getD,
        hsum, hlt]
    · simp [recordUsage, ht, thresholdTruthy, List.map_take, List.getD_eq_getElem?_getD,
        hsum, hlt]
  · simp [recordAll, recordUsage, trackerPricing, MODEL_PRICING, thresholdTruthy, entriesAux]
    norm_num


theorem C5_cost_tier_selection_witness :
    (recordAll (trackerPricing "gemini-2.5-pro") {}
        [(150000, 1000), (100000, 1000)]).entries.getD 1 default =
      { inputTokens := 100000, outputTokens := 1000,
        cost := (100000 : ℚ) / 1000000 * 2.5 + (1000 : ℚ) / 1000000 * 15 } := by
  have h := (C5_cost_tier_selection).1 "gemini-2.5-pro" 200000
    (by simp [trackerPricing, MODEL_PRICING]) [(150000, 1000), (100000, 1000)] 1 (by decide)
  rw [h]
  norm_num [trackerPricing, MODEL_PRICING]

/-- A primitive JSON value: not an array and not an object. -/
def isPrimitive : JValue → Bool
  | .str _ => true
  | .num _ => true
  | .jbool _ => true
  | .jnull => true
  | .arr _ => false
  | .obj _ => false

theorem mem_insertSorted (a s : String) (l : List String) :
    a ∈ insertSorted s l ↔ a = s ∨ a ∈ l := by
  induction l with
  | nil => simp [insertSorted]
  | cons t ts ih =>
    simp only [insertSorted]
    split
    · simp
    · simp [ih]
      tauto

theorem mem_sortStrings (a : String) (l : List String) :
    a ∈ sortStrings l ↔ a ∈ l := by
  induction l with
  | nil => simp [sortStrings]
  | cons s ss ih => simp [sortStrings, mem_insertSorted, ih]

theorem lookupField_primitive (fields : List (String × JValue)) (k : String)
    (h : ∀ p ∈ fields, isPrimitive p.2 = true) :
    isPrimitive (lookupField fields k) = true := by
  unfold lookupField
  rcases hf : fields.find? (fun p => p.1 = k) with _ | p <;> rw [hf]
  · rfl
  · exact h p (List.mem_of_find?_eq_some hf)

theorem stringifyPL_eq_canonicalJSON_of_primitive (K : List String) (v : JValue)
    (h : isPrimitive v = true) : stringifyPL K v = canonicalJSON v := by
  cases v <;> simp_all [stringifyPL, canonicalJSON, isPrimitive]

theorem stringifyPL_obj_flat (fields : List (String × JValue))
    (h : ∀ p ∈ fields, isPrimitive p.2 = true) :
    stringifyPL (sortStrings (fields.map Prod.fst)) (JValue.obj fields) =
      canonicalJSON (JValue.obj fields) := by
  rw [stringifyPL, canonicalJSON]
  have hfil : (sortStrings (fields.map Prod.fst)).filter
      (fun k => fields.any (fun p => p.1 = k)) = sortStrings (fields.map Prod.fst) := by
    rw [List.filter_eq_self]
    intro k hk
    rw [mem_sortStrings] at hk
    obtain ⟨p, hp, hpk⟩ := List.mem_map.mp hk
    exact List.any_eq_true.mpr ⟨p, hp, by simp [hpk]⟩
  rw [hfil]
  have hmap : ∀ k ∈ sortStrings (fields.map Prod.fst),
      jsonQuote k ++ ":" ++
          stringifyPL (sortStrings (fields.map Prod.fst)) (lookupField fields k) =
        jsonQuote k ++ ":" ++ canonicalJSON (lookupField fields k) := by
    intro k _
    rw [stringifyPL_eq_canonicalJSON_of_primitive _ _ (lookupField_primitive fields k h)]
  rw [List.map_congr_left hmap]

/-- **C3 (amended).** For every round whose calls' argument values are all
primitive (string, number, boolean, or null), the repetition fingerprint
computed by the agent equals `join("|", [name + "::" + canonicalJSON(args)])`
with object keys sorted lexicographically; with non-primitive argument
values the claim fails (see the counterexample), because
`JSON.stringify(args, Object.keys(args).sort())` uses a replacer *array*,
which at every nesting depth keeps only the properties whose names occur
among the top-level argument names. -/
theorem C3_flat_args_fingerprint (calls : List ToolCall)
    (hflat : ∀ tc ∈ calls, ∀ p ∈ tc.arguments, isPrimitive p.2 = true) :
    roundFingerprint calls = specRoundFingerprint calls := by
  unfold roundFingerprint specRoundFingerprint
  congr 1
  apply List.map_congr_left
  intro tc htc
  unfold toolCallFingerprint
  rw [stringifyPL_obj_flat tc.arguments (hflat tc htc)]

theorem C3_flat_args_fingerprint_witness :
    roundFingerprint [⟨"read_file", [("path", .str "a.ts"), ("start_line", .num 1)]⟩] =
      specRoundFingerprint
        [⟨"read_file", [("path", .str "a.ts"), ("start_line", .num 1)]⟩] :=
  C3_flat_args_fingerprint _ (by decide)

/-! ### Split/join infrastructure for the line tools -/

theorem intercalate_cons_of_ne_nil {α : Type} (sep : List α) (x : List α)
    (xs : List (List α)) (h : xs ≠ []) :
    List.intercalate sep (x :: xs) = x ++ sep ++ List.intercalate sep xs := by
  obtain ⟨y, ys, rfl⟩ := List.exists_cons_of_ne_nil h
  simp [List.intercalate, List.intersperse]

theorem intercalate_singleton' {α : Type} (sep : List α) (x : List α) :
    List.intercalate sep [x] = x := by
  simp [List.intercalate, List.intersperse]

theorem splitNl_ne_nil (cs : List Char) : splitNl cs ≠ [] := by
  induction cs with
  | nil => simp [splitNl]
  | cons c cs ih =>
    simp only [splitNl]
    split
    · simp
    · rcases h : splitNl cs with _ | ⟨l, ls⟩
      · simp
      · simp

theorem splitNl_cons_newline (cs : List Char) :
    splitNl ('\n' :: cs) = [] :: splitNl cs := by
  simp [splitNl]

theorem splitNl_cons_other (c : Char) (cs x : List Char) (xs : List (List Char))
    (hc : ¬(c = '\n')) (hx : splitNl cs = x :: xs) :
    splitNl (c :: cs) = (c :: x) :: xs := by
  simp [splitNl, hc, hx]

theorem joinNl_cons_cons (c : Char) (l : List Char) (ls : List (List Char)) :
    joinNl ((c :: l) :: ls) = c :: joinNl (l :: ls) := by
  rcases ls with _ | ⟨m, ms⟩
  · rw [joinNl, joinNl, intercalate_singleton', intercalate_singleton']
  · rw [joinNl, joinNl,
      intercalate_cons_of_ne_nil ['\n'] (c :: l) (m :: ms) (List.cons_ne_nil m ms),
      intercalate_cons_of_ne_nil ['\n'] l (m :: ms) (List.cons_ne_nil m ms)]
    simp

theorem joinNl_nil_cons (ls : List (List Char)) (h : ls ≠ []) :
    joinNl ([] :: ls) = '\n' :: joinNl ls := by
  rw [joinNl, intercalate_cons_of_ne_nil _ _ _ h]
  simp [joinNl]

theorem joinNl_splitNl (cs : List Char) : joinNl (splitNl cs) = cs := by
  induction cs with
  | nil => rfl
  | cons c cs ih =>
    by_cases hc : c = '\n'
    · subst hc
      rw [splitNl_cons_newline, joinNl_nil_cons _ (splitNl_ne_nil cs), ih]
    · obtain ⟨x, xs, hx⟩ := List.exists_cons_of_ne_nil (splitNl_ne_nil cs)
      rw [splitNl_cons_other c cs x xs hc hx, joinNl_cons_cons, ← hx, ih]

theorem splitNl_no_newline (cs : List Char) : ∀ l ∈ splitNl cs, '\n' ∉ l := by
  induction cs with
  | nil =>
    intro l hl
    simp [splitNl] at hl
    simp [hl]
  | cons c cs ih =>
    intro l hl
    by_cases hc : c = '\n'
    · subst hc
      rw [splitNl_cons_newline] at hl
      rcases List.mem_cons.mp hl with rfl | h2
      · simp
      · exact ih l h2
    · obtain ⟨x, xs, hx⟩ := List.exists_cons_of_ne_nil (splitNl_ne_nil cs)
      rw [splitNl_cons_other c cs x xs hc hx] at hl
      rcases List.mem_cons.mp hl with rfl | h2
      · intro hmem
        rcases List.mem_cons.mp hmem with heq | hm
        · exact hc heq.symm
        · exact ih x (by rw [hx]; exact List.mem_cons_self x xs) hm
      · exact ih l (by rw [hx]; exact List.mem_cons_of_mem x h2)

theorem splitNl_of_no_newline (cs : List Char) (h : '\n' ∉ cs) : splitNl cs = [cs] := by
  induction cs with
  | nil => rfl
  | cons c cs ih =>
    simp only [List.mem_cons, not_or] at h
    have hc : ¬(c = '\n') := fun hch => h.1 hch.symm
    rw [splitNl_cons_other c cs cs [] hc (ih h.2)]

theorem splitNl_append_newline (l cs : List Char) (h : '\n' ∉ l) :
    splitNl (l ++ '\n' :: cs) = l :: splitNl cs := by
  induction l with
  | nil => simp [splitNl]
  | cons a l ih =>
    simp only [List.mem_cons, not_or] at h
    have ha : ¬(a = '\n') := fun hch => h.1 hch.symm
    obtain ⟨x, xs, hx⟩ := List.exists_cons_of_ne_nil (splitNl_ne_nil (l ++ '\n' :: cs))
    rw [List.cons_append, splitNl_cons_other a _ x xs ha hx]
    rw [ih h.2] at hx
    injection hx with h1 h2
    rw [← h1, ← h2]


theorem splitNl_joinNl (L : List (List Char)) (hne : L ≠ [])
    (h : ∀ l ∈ L, '\n' ∉ l) : splitNl (joinNl L) = L := by
  induction L with
  | nil => exact absurd rfl hne
  | cons x xs ih =>
    rcases xs with _ | ⟨y, ys⟩
    · rw [joinNl, intercalate_singleton']
      exact splitNl_of_no_newline x (h x (List.mem_cons_self x []))
    · rw [joinNl, intercalate_cons_of_ne_nil ['\n'] x (y :: ys) (List.cons_ne_nil y ys)]
      rw [List.append_assoc, List.singleton_append]
      rw [splitNl_append_newline _ _ (h x (List.mem_cons_self x _))]
      rw [← joinNl, ih (List.cons_ne_nil y ys) (fun l hl => h l (List.mem_cons_of_mem x hl))]


theorem deleteLines_snd_of_valid (filePath content : String) (s e : Int)
    (h1 : 1 ≤ s) (h2 : s ≤ e) (h3 : e ≤ ((splitNl content.data).length : Int)) :
    (deleteLinesExecute filePath content s e).2 =
      String.mk (joinNl ((splitNl content.data).take (s - 1).toNat ++
        (splitNl content.data).drop e.toNat)) := by
  unfold deleteLinesExecute
  dsimp only
  rw [if_neg (by push_cast; omega), min_eq_left h3]

theorem insertLines_snd_of_valid (filePath content : String) (lineNum : Int)
    (insertContent : String) (h0 : ¬(lineNum = 0)) (hm1 : ¬(lineNum = -1))
    (hrange : 1 ≤ lineNum ∧ lineNum ≤ ((splitNl content.data).length : Int) + 1) :
    (insertLinesExecute filePath content lineNum insertContent).2 =
      String.mk (joinNl ((splitNl content.data).take (lineNum - 1).toNat ++
        splitNl insertContent.data ++
        (splitNl content.data).drop (lineNum - 1).toNat)) := by
  unfold insertLinesExecute
  dsimp only
  rw [if_neg h0, if_neg hm1, if_pos hrange]

/-- **C8 (amended).** For every file and every valid 1-indexed inclusive
range `1 ≤ s ≤ e ≤ N` that does **not** cover the whole file
(`¬(s = 1 ∧ e = N)`), executing `delete_lines(path, s, e)` and then
`insert_lines(path, line = s, content = the deleted lines joined by
newline)` restores the file to its original content.  When the range is
the whole file the round trip instead appends a trailing newline (see the
counterexample): the deleted file is the empty string, which re-parses as
one empty line. -/
theorem C8_delete_insert_roundtrip (filePath : String) (content : String) (s e : Int)
    (h1 : 1 ≤ s) (h2 : s ≤ e) (h3 : e ≤ ((splitNl content.data).length : Int))
    (h4 : ¬(s = 1 ∧ e = ((splitNl content.data).length : Int))) :
    (insertLinesExecute filePath (deleteLinesExecute filePath content s e).2 s
      (String.mk (joinNl (((splitNl content.data).drop (s - 1).toNat).take
        (e - s + 1).toNat)))).2 = content := by
  have hNpos : 0 < (splitNl content.data).length :=
    List.length_pos.mpr (splitNl_ne_nil content.data)
  set L := splitNl content.data with hLdef
  set N := L.length with hNdef
  set D := (L.drop (s - 1).toNat).take (e - s + 1).toNat with hDdef
  set L' := L.take (s - 1).toNat ++ L.drop e.toNat with hLtd
  have hnoNl : ∀ l ∈ L, '\n' ∉ l := splitNl_no_newline content.data
  have hlenL' : L'.length = (s - 1).toNat + (N - e.toNat) := by
    rw [hLtd, List.length_append, List.length_take, List.length_drop]
    have : (s - 1).toNat ≤ N := by omega
    omega
  have hL'ne : L' ≠ [] := by
    apply List.length_pos.mp
    rw [hlenL']
    omega
  have hL'noNl : ∀ l ∈ L', '\n' ∉ l := by
    intro l hl
    rcases List.mem_append.mp hl with h | h
    · exact hnoNl l (List.mem_of_mem_take h)
    · exact hnoNl l (List.mem_of_mem_drop h)
  have hDne : D ≠ [] := by
    apply List.length_pos.mp
    rw [hDdef, List.length_take, List.length_drop]
    omega
  have hDnoNl : ∀ l ∈ D, '\n' ∉ l := by
    intro l hl
    exact hnoNl l (List.mem_of_mem_drop (List.mem_of_mem_take hl))
  -- evaluate the delete
  rw [deleteLines_snd_of_valid filePath content s e h1 h2 h3]
  -- the re-read file splits back into the deleted-range complement
  have hsplitL' : splitNl (String.mk (joinNl L')).data = L' :=
    splitNl_joinNl L' hL'ne hL'noNl
  have hsplitD : splitNl (String.mk (joinNl D)).data = D :=
    splitNl_joinNl D hDne hDnoNl
  rw [insertLines_snd_of_valid _ _ s _ (by omega) (by omega)
    (by rw [hsplitL']; push_cast [hlenL']; omega)]
  rw [hsplitL', hsplitD]
  -- list algebra: the insert re-assembles the original line list
  have htake : L'.take (s - 1).toNat = L.take (s - 1).toNat := by
    rw [hLtd]
    exact List.take_left' (by rw [List.length_take]; omega)
  have hdrop : L'.drop (s - 1).toNat = L.drop e.toNat := by
    rw [hLtd]
    exact List.drop_left' (by rw [List.length_take]; omega)
  rw [htake, hdrop]
  have hmid : D ++ L.drop e.toNat = L.drop (s - 1).toNat := by
    have he : L.drop e.toNat = (L.drop (s - 1).toNat).drop (e - s + 1).toNat := by
      rw [List.drop_drop]
      congr 1
      omega
    rw [he, hDdef, List.take_append_drop]
  rw [List.append_assoc, hmid, List.take_append_drop]
  rw [hLdef, joinNl_splitNl]


theorem C8_delete_insert_roundtrip_witness :
    (insertLinesExecute "f.txt" (deleteLinesExecute "f.txt" "a\nb\nc" 2 2).2 2
      (String.mk (joinNl (((splitNl ("a\nb\nc" : String).data).drop
        ((2 : Int) - 1).toNat).take ((2 : Int) - 2 + 1).toNat)))).2 = "a\nb\nc" :=
  C8_delete_insert_roundtrip "f.txt" "a\nb\nc" 2 2 (by decide) (by decide)
    (by decide) (by decide)

/-! ### Path sandbox analysis -/

/-- Specification-side: the first path segment below the project root, if
any, does not itself begin with the two characters `".."`.  (The source's
`relative(...).startsWith("..")` test conflates such descendants with
paths that escape the root.) -/
def firstSegBelowRootOk (root : List String) (p : RawPath) : Bool :=
  match (resolvePath root p).drop root.length with
  | [] => true
  | sseg :: _ => !(jsStartsWith sseg "..")

theorem normSegs_mem : ∀ (l acc : List String) (s : String),
    s ∈ normSegs acc l → s ∈ acc ∨ s ∈ l := by
  intro l
  induction l with
  | nil => intro acc s h; exact Or.inl h
  | cons x rest ih =>
    intro acc s h
    rw [normSegs] at h
    split at h
    · rcases ih acc s h with h | h
      · exact Or.inl h
      · exact Or.inr (List.mem_cons_of_mem x h)
    · split at h
      · rcases ih acc.dropLast s h with h | h
        · exact Or.inl (List.dropLast_subset acc h)
        · exact Or.inr (List.mem_cons_of_mem x h)
      · rcases ih (acc ++ [x]) s h with h | h
        · rcases List.mem_append.mp h with h | h
          · exact Or.inl h
          · simp at h
            exact Or.inr (h ▸ List.mem_cons_self x rest)
        · exact Or.inr (List.mem_cons_of_mem x h)

theorem normSegs_good : ∀ (l acc : List String),
    (∀ x ∈ acc, x ≠ "" ∧ x ≠ "." ∧ x ≠ "..") →
    ∀ s ∈ normSegs acc l, s ≠ "" ∧ s ≠ "." ∧ s ≠ ".." := by
  intro l
  induction l with
  | nil => intro acc hacc s h; exact hacc s h
  | cons x rest ih =>
    intro acc hacc s h
    rw [normSegs] at h
    split at h
    · exact ih acc hacc s h
    · split at h
      · exact ih acc.dropLast (fun y hy => hacc y (List.dropLast_subset acc hy)) s h
      · refine ih (acc ++ [x]) ?_ s h
        intro y hy
        rcases List.mem_append.mp hy with hy | hy
        · exact hacc y hy
        · simp at hy
          subst hy
          rename_i hne hdd
          push_neg at hne
          exact ⟨hne.1, hne.2, hdd⟩

theorem commonPrefixLen_append (root rest : List String) :
    commonPrefixLen root (root ++ rest) = root.length := by
  induction root with
  | nil => rfl
  | cons a as ih =>
    simp [commonPrefixLen, ih]
    omega

theorem commonPrefixLen_le (a b : List String) : commonPrefixLen a b ≤ a.length := by
  induction a generalizing b with
  | nil => simp [commonPrefixLen]
  | cons x xs ih =>
    cases b with
    | nil => simp [commonPrefixLen]
    | cons y ys =>
      rw [commonPrefixLen]
      split
      · have := ih ys
        simp only [List.length_cons]
        omega
      · simp

theorem prefix_of_commonPrefixLen_eq (a : List String) :
    ∀ (b : List String), commonPrefixLen a b = a.length → a <+: b := by
  induction a with
  | nil => intro b _; exact List.nil_prefix
  | cons x xs ih =>
    intro b h
    cases b with
    | nil => simp [commonPrefixLen] at h
    | cons y ys =>
      rw [commonPrefixLen] at h
      split at h
      · rename_i hxy
        subst hxy
        simp only [List.length_cons] at h
        obtain ⟨t, ht⟩ := ih ys (by omega)
        exact ⟨t, by simp [ht]⟩
      · simp at h


theorem twoDot_isPrefixOf_append (l t : List Char)
    (ht : t = [] ∨ t.head? = some '/') :
    ['.', '.'].isPrefixOf (l ++ t) = ['.', '.'].isPrefixOf l := by
  rcases ht with rfl | ht
  · rw [List.append_nil]
  · obtain ⟨ts, rfl⟩ : ∃ ts, t = '/' :: ts := by
      cases t with
      | nil => simp at ht
      | cons a as =>
        simp at ht
        exact ⟨as, by rw [ht]⟩
    match l with
    | [] => simp [List.isPrefixOf]
    | [c] => simp [List.isPrefixOf]
    | c1 :: c2 :: ls => simp [List.isPrefixOf]

theorem slash_isPrefixOf_eq_false (x : List Char) (hx : x.head? ≠ some '/') :
    ['/'].isPrefixOf x = false := by
  cases x with
  | nil => rfl
  | cons a as =>
    have ha : ¬('/' = a) := fun h => hx (by rw [h]; rfl)
    simp [List.isPrefixOf, ha]

theorem relativePath_data_of_ancestor (root rest : List String) :
    (relativePath root (root ++ rest)).data =
      List.intercalate ['/'] (rest.map String.data) := by
  unfold relativePath
  dsimp only
  rw [commonPrefixLen_append, Nat.sub_self, List.replicate_zero, List.nil_append,
    List.drop_left]

/-- **C9 (amended).** For every file path `p` (with well-formed path
segments: the captured project root is normalized and slash-free, and
`p`'s raw segments contain no slash), `isWithinWorkingDirectory(p)`
returns true iff the absolute normalization of `p` is equal to the
project root or is a descendant of it **whose first segment below the
root does not itself begin with the two characters `".."`**.  The extra
condition is forced by the counterexample: `relative(root, p)` for such a
descendant is a string starting with `".."`, which the source conflates
with escaping the root. -/
theorem C9_within_iff_descendant_and_clean_first_seg (root : List String) (p : RawPath)
    (hroot : ∀ s ∈ root, (s ≠ "" ∧ s ≠ "." ∧ s ≠ "..") ∧ '/' ∉ s.data)
    (hp : ∀ s ∈ p.segs, '/' ∉ s.data) :
    isWithinWorkingDirectory root p =
      (isDescendantOrEqual root p && firstSegBelowRootOk root p) := by
  have hgood : ∀ s ∈ resolvePath root p, s ≠ "" ∧ s ≠ "." ∧ s ≠ ".." := by
    unfold resolvePath
    split
    · exact normSegs_good _ [] (by simp)
    · exact normSegs_good _ [] (by simp)
  have hnos : ∀ s ∈ resolvePath root p, '/' ∉ s.data := by
    intro s hs
    unfold resolvePath at hs
    split at hs
    · rcases normSegs_mem _ [] s hs with h | h
      · simp at h
      · exact hp s h
    · rcases normSegs_mem _ [] s hs with h | h
      · simp at h
      · rcases List.mem_append.mp h with h | h
        · exact (hroot s h).2
        · exact hp s h
  by_cases hpre : root <+: resolvePath root p
  · obtain ⟨rest, hrest⟩ := hpre
    have hdesc : isDescendantOrEqual root p = true :=
      List.isPrefixOf_iff_prefix.mpr ⟨rest, hrest⟩
    rw [hdesc, Bool.true_and]
    unfold isWithinWorkingDirectory firstSegBelowRootOk jsStartsWith
    dsimp only
    rw [← hrest, List.drop_left]
    rw [relativePath_data_of_ancestor]
    cases rest with
    | nil => rfl
    | cons sseg rest' =>
      have hsegmem : sseg ∈ resolvePath root p := by
        rw [← hrest]; exact List.mem_append.mpr (Or.inr (List.mem_cons_self _ _))
      have hsegne : sseg.data ≠ [] := fun hd => (hgood sseg hsegmem).1 (String.ext hd)
      have hseghead : sseg.data.head? ≠ some '/' := by
        intro hh
        apply hnos sseg hsegmem
        cases hd : sseg.data with
        | nil => exact absurd hd hsegne
        | cons a as =>
          rw [hd] at hh
          simp at hh
          subst hh
          exact List.mem_cons_self _ _
      cases rest' with
      | nil =>
        rw [List.map_cons, List.map_nil, intercalate_singleton']
        rw [slash_isPrefixOf_eq_false sseg.data hseghead]
        simp
      | cons r rs =>
        rw [List.map_cons,
          intercalate_cons_of_ne_nil ['/'] sseg.data ((r :: rs).map String.data)
            (by simp)]
        rw [List.append_assoc]
        rw [twoDot_isPrefixOf_append sseg.data _ (Or.inr (by simp))]
        rw [slash_isPrefixOf_eq_false _ (by
          cases hd : sseg.data with
          | nil => exact absurd hd hsegne
          | cons a as =>
            rw [hd] at hseghead
            simp only [List.cons_append, List.head?_cons]
            simpa using hseghead)]
        simp
  · have hdesc : isDescendantOrEqual root p = false := by
      rw [← Bool.not_eq_true]
      intro hb
      exact hpre (List.isPrefixOf_iff_prefix.mp hb)
    rw [hdesc, Bool.false_and]
    have hlt : commonPrefixLen root (resolvePath root p) < root.length :=
      lt_of_le_of_ne (commonPrefixLen_le _ _)
        (fun heq => hpre (prefix_of_commonPrefixLen_eq _ _ heq))
    unfold isWithinWorkingDirectory jsStartsWith relativePath
    dsimp only
    obtain ⟨m, hm⟩ : ∃ m, root.length - commonPrefixLen root (resolvePath root p) = m + 1 :=
      ⟨root.length - commonPrefixLen root (resolvePath root p) - 1, by omega⟩
    rw [hm, List.replicate_succ, List.cons_append, List.map_cons]
    cases htl : (List.replicate m ".." ++
        (resolvePath root p).drop (commonPrefixLen root (resolvePath root p))).map
          String.data with
    | nil =>
      rw [intercalate_singleton']
      simp [List.isPrefixOf]
    | cons x xs =>
      rw [intercalate_cons_of_ne_nil ['/'] ['.', '.'] (x :: xs) (by simp)]
      rw [List.append_assoc]
      rw [twoDot_isPrefixOf_append ['.', '.'] _ (Or.inr (by simp))]
      simp [List.isPrefixOf]


theorem C9_within_iff_witness :
    isWithinWorkingDirectory ["home", "project"]
        ⟨false, ["src", "..", "tools", "x.ts"]⟩ =
      (isDescendantOrEqual ["home", "project"] ⟨false, ["src", "..", "tools", "x.ts"]⟩ &&
        firstSegBelowRootOk ["home", "project"] ⟨false, ["src", "..", "tools", "x.ts"]⟩) :=
  C9_within_iff_descendant_and_clean_first_seg ["home", "project"]
    ⟨false, ["src", "..", "tools", "x.ts"]⟩ (by decide) (by decide)

/-! ### Occurrence counting analysis for `edit_file` -/

/-- The number of match positions at or after position `f`. -/
def matchesFrom (c pat : List Char) (f : Nat) : Nat :=
  ((Finset.range (c.length + 1)).filter
    (fun k => f ≤ k ∧ pat.isPrefixOf (c.drop k) = true)).card

theorem jsIndexOf_eq_none_iff (c pat : List Char) (f : Nat) :
    jsIndexOf c pat f = none ↔
      ∀ k, k ≤ c.length → min f c.length ≤ k → ¬(pat.isPrefixOf (c.drop k) = true) := by
  unfold jsIndexOf
  rw [List.head?_eq_none_iff, List.filter_eq_nil_iff]
  constructor
  · intro h k hk1 hk2 hm
    exact h k (List.mem_range.mpr (by omega)) (by simp [hk2, hm])
  · intro h k hk hcond
    simp only [Bool.and_eq_true, decide_eq_true_eq] at hcond
    exact h k (by have := List.mem_range.mp hk; omega) hcond.1 hcond.2

theorem jsIndexOf_eq_some (c pat : List Char) (f idx : Nat)
    (h : jsIndexOf c pat f = some idx) :
    min f c.length ≤ idx ∧ idx ≤ c.length ∧ pat.isPrefixOf (c.drop idx) = true ∧
      ∀ j, j < idx → min f c.length ≤ j → ¬(pat.isPrefixOf (c.drop j) = true) := by
  unfold jsIndexOf at h
  set fl := (List.range (c.length + 1)).filter
    (fun k => decide (min f c.length ≤ k) && pat.isPrefixOf (c.drop k)) with hfl
  obtain ⟨tail, htail⟩ : ∃ t, fl = idx :: t := by
    cases hc : fl with
    | nil => rw [hc] at h; simp at h
    | cons x xs =>
      rw [hc] at h
      simp at h
      exact ⟨xs, by rw [h]⟩
  have hmem : idx ∈ fl := htail ▸ List.mem_cons_self idx tail
  rw [hfl, List.mem_filter] at hmem
  obtain ⟨hrange, hcond⟩ := hmem
  simp only [Bool.and_eq_true, decide_eq_true_eq] at hcond
  have hsorted : List.Pairwise (· < ·) fl :=
    (List.pairwise_lt_range (c.length + 1)).filter _
  refine ⟨hcond.1, by have := List.mem_range.mp hrange; omega, hcond.2, ?_⟩
  intro j hj hjf hjm
  have hjmem : j ∈ fl := by
    rw [hfl, List.mem_filter]
    refine ⟨List.mem_range.mpr (by have := List.mem_range.mp hrange; omega), ?_⟩
    simp [hjf, hjm]
  rw [htail] at hjmem
  rcases List.mem_cons.mp hjmem with rfl | hjtail
  · omega
  · rw [htail] at hsorted
    have := (List.pairwise_cons.mp hsorted).1 j hjtail
    omega

theorem countOccAux_eq (c pat : List Char) (hpat : pat ≠ []) :
    ∀ (fuel f cnt : Nat), c.length + 1 - f < fuel →
      countOccAux c pat fuel f cnt = some (cnt + matchesFrom c pat f) := by
  intro fuel
  induction fuel with
  | zero => intro f cnt h; omega
  | succ fuel ih =>
    intro f cnt hfuel
    rw [countOccAux]
    cases hidx : jsIndexOf c pat f with
    | none =>
      have hnone := (jsIndexOf_eq_none_iff c pat f).mp hidx
      have hz : matchesFrom c pat f = 0 := by
        rw [matchesFrom, Finset.card_eq_zero, Finset.filter_eq_empty_iff]
        intro k hk hcond
        exact hnone k (by have := Finset.mem_range.mp hk; omega)
          (by omega) hcond.2
      simp [hz]
    | some idx =>
      dsimp only
      obtain ⟨hmin, hle, hm, hleast⟩ := jsIndexOf_eq_some c pat f idx hidx
      have hflen : f ≤ c.length := by
        by_contra hgt
        have hminl : min f c.length = c.length := by omega
        have hidxl : idx = c.length := by omega
        rw [hidxl, List.drop_length] at hm
        cases pat with
        | nil => exact hpat rfl
        | cons a as => simp [List.isPrefixOf] at hm
      have hminf : min f c.length = f := by omega
      rw [hminf] at hmin hleast
      have hstep : matchesFrom c pat f = 1 + matchesFrom c pat (idx + 1) := by
        rw [matchesFrom, matchesFrom]
        rw [show (Finset.range (c.length + 1)).filter
            (fun k => f ≤ k ∧ pat.isPrefixOf (c.drop k) = true) =
          insert idx ((Finset.range (c.length + 1)).filter
            (fun k => idx + 1 ≤ k ∧ pat.isPrefixOf (c.drop k) = true)) from ?_]
        · rw [Finset.card_insert_of_not_mem (by simp)]
          omega
        · ext k
          simp only [Finset.mem_filter, Finset.mem_range, Finset.mem_insert]
          constructor
          · rintro ⟨hk, hfk, hmk⟩
            by_cases hki : k = idx
            · exact Or.inl hki
            · refine Or.inr ⟨hk, ?_, hmk⟩
              by_contra hlt
              exact hleast k (by omega) hfk hmk
          · rintro (rfl | ⟨hk, hik, hmk⟩)
            · exact ⟨by omega, hmin, hm⟩
            · exact ⟨hk, by omega, hmk⟩
      rw [ih (idx + 1) (cnt + 1) (by omega), hstep]
      congr 1
      omega

theorem countOccurrences_eq_spec (content old : String) (h : old ≠ "") :
    countOccurrences content old = some (specOccurrences content old) := by
  have hpat : old.data ≠ [] := fun hd => h (String.ext hd)
  unfold countOccurrences
  rw [countOccAux_eq content.data old.data hpat (content.data.length + 2) 0 0 (by omega)]
  rw [Nat.zero_add]
  unfold matchesFrom specOccurrences
  exact congrArg (fun n => some n)
    (congrArg Finset.card (Finset.filter_congr (fun k _ => by
      constructor
      · rintro ⟨-, hm⟩; exact hm
      · intro hm; exact ⟨Nat.zero_le k, hm⟩)))


/-- **C7 (amended).** For every file content and every **non-empty**
`old_text`, `edit_file` in search-and-replace mode leaves the file
unchanged and returns `isError = true` unless `old_text` occurs exactly
once: with zero occurrences the output is the not-found report, and with
`n ≥ 2` occurrences the output is the found-`n`-times report, which
contains the decimal count; in both cases the returned file content is
the input content.  The restriction to non-empty `old_text` is forced by
the counterexample: with `old_text = ""` the source's occurrence-counting
loop never terminates. -/
theorem C7_search_replace_rejects_non_unique (filePath content old new : String)
    (hold : old ≠ "") (hn : specOccurrences content old ≠ 1) :
    editFileExecute filePath content (some old) new none none =
      some ({ output := if specOccurrences content old = 0 then
                  notFoundMessage filePath content
                else foundTimesMessage filePath (specOccurrences content old),
              isError := true }, content) ∧
    ∃ pre post, foundTimesMessage filePath (specOccurrences content old) =
      pre ++ toString (specOccurrences content old) ++ post := by
  constructor
  · have hsr : searchAndReplace content old new filePath =
        some (.error (if specOccurrences content old = 0 then
          notFoundMessage filePath content
        else foundTimesMessage filePath (specOccurrences content old))) := by
      unfold searchAndReplace
      rw [countOccurrences_eq_spec content old hold]
      by_cases h0 : specOccurrences content old = 0
      · simp [h0]
      · have h2 : 1 < specOccurrences content old := by omega
        simp [h0, h2, if_neg h0]
    unfold editFileExecute
    dsimp only
    rw [hsr]
  · refine ⟨"Edit failed: old_text found ",
      " times in " ++ filePath ++ ".\n" ++
        "Provide more surrounding context in old_text to make it unique.", ?_⟩
    simp [foundTimesMessage, String.append_assoc]

theorem C7_search_replace_rejects_non_unique_witness :
    editFileExecute "f.ts" "ab ab" (some "ab") "x" none none =
      some ({ output := foundTimesMessage "f.ts" 2, isError := true }, "ab ab") := by
  have h := (C7_search_replace_rejects_non_unique "f.ts" "ab ab" "ab" "x"
    (by decide) (by decide)).1
  rw [h]
  decide

/-! ### Compaction cutoff analysis -/

/-- The number of *ToolResultBatch* (tool-role) messages in a transcript. -/
def toolCount (history : List LLMMessage) : Nat :=
  (history.filter (fun m => m.role = .tool)).length

/-- Specification-side: the cutoff one past the `n`-th (1-indexed)
tool-role message of the transcript. -/
def cutoffAfterNthTool : Nat → List LLMMessage → Nat
  | _, [] => 0
  | n, m :: rest =>
    if m.role = .tool then
      if n ≤ 1 then 1 else 1 + cutoffAfterNthTool (n - 1) rest
    else 1 + cutoffAfterNthTool n rest

theorem toolMsgIndicesOf_cons (m : LLMMessage) (t : List LLMMessage) :
    toolMsgIndicesOf (m :: t) =
      (if m.role = .tool then [0] else []) ++ (toolMsgIndicesOf t).map (· + 1) := by
  unfold toolMsgIndicesOf
  rw [List.length_cons, List.range_succ_eq_map, List.filter_cons, List.filter_map]
  have hf : ((fun i => decide (((m :: t).getD i default).role = Role.tool)) ∘ Nat.succ) =
      (fun i => decide ((t.getD i default).role = Role.tool)) := by
    funext i
    simp [Function.comp, List.getD_cons_succ]
  rw [hf]
  have hsucc : (List.map Nat.succ
      (List.filter (fun i => decide ((t.getD i default).role = Role.tool))
        (List.range t.length))) =
      (List.map (· + 1)
        (List.filter (fun i => decide ((t.getD i default).role = Role.tool))
          (List.range t.length))) := by
    apply List.map_congr_left
    intro a _
    omega
  rw [hsucc]
  by_cases hm : m.role = Role.tool
  · rw [if_pos (by simpa using hm), if_pos hm]
    rfl
  · rw [if_neg (by simpa using hm), if_neg hm]
    rfl


theorem length_toolMsgIndicesOf (h : List LLMMessage) :
    (toolMsgIndicesOf h).length = toolCount h := by
  induction h with
  | nil => rfl
  | cons m t ih =>
    rw [toolMsgIndicesOf_cons, List.length_append, List.length_map, ih]
    unfold toolCount
    rw [List.filter_cons]
    by_cases hm : m.role = Role.tool
    · rw [if_pos hm, if_pos (by simpa using hm)]
      simp only [List.length_cons, List.length_nil, List.length_singleton]
      omega
    · rw [if_neg hm, if_neg (by simpa using hm)]
      simp

theorem mem_toolMsgIndicesOf_lt (h : List LLMMessage) :
    ∀ i ∈ toolMsgIndicesOf h, i < h.length := by
  intro i hi
  unfold toolMsgIndicesOf at hi
  exact List.mem_range.mp (List.mem_filter.mp hi).1

theorem getD_toolMsgIndicesOf (h : List LLMMessage) :
    ∀ (n : Nat), 1 ≤ n → n ≤ toolCount h →
      (toolMsgIndicesOf h).getD (n - 1) 0 + 1 = cutoffAfterNthTool n h := by
  induction h with
  | nil =>
    intro n h1 h2
    simp [toolCount] at h2
    omega
  | cons m t ih =>
    intro n h1 h2
    rw [toolMsgIndicesOf_cons, cutoffAfterNthTool]
    have hcount : toolCount (m :: t) =
        (if m.role = Role.tool then 1 else 0) + toolCount t := by
      unfold toolCount
      rw [List.filter_cons]
      by_cases hmx : m.role = Role.tool
      · rw [if_pos (by simpa using hmx), if_pos hmx]
        simp only [List.length_cons]
        omega
      · rw [if_neg (by simpa using hmx), if_neg hmx]
        simp
    by_cases hm : m.role = Role.tool
    · rw [if_pos hm] at hcount
      rw [if_pos hm]  -- the index-list if on the left
      rw [if_pos hm]  -- the cutoff if on the right
      rcases Nat.eq_or_lt_of_le h1 with h1e | h1lt
      · rw [← h1e]
        simp [List.singleton_append]
      · have hn2 : 2 ≤ n := h1lt
        rw [if_neg (show ¬(n ≤ 1) by omega)]
        have : (([0] ++ (toolMsgIndicesOf t).map (· + 1)).getD (n - 1) 0) =
            ((toolMsgIndicesOf t).map (· + 1)).getD (n - 2) 0 := by
          rw [show n - 1 = (n - 2) + 1 by omega]
          rfl
        rw [this]
        have hbound : n - 2 < (toolMsgIndicesOf t).length := by
          rw [length_toolMsgIndicesOf]
          omega
        rw [List.getD_eq_getElem?_getD, List.getElem?_map,
          List.getElem?_eq_getElem hbound]
        simp only [Option.map_some', Option.getD_some]
        have := ih (n - 1) (by omega) (by omega)
        rw [List.getD_eq_getElem?_getD, show n - 1 - 1 = n - 2 by omega,
          List.getElem?_eq_getElem hbound, Option.getD_some] at this
        omega
    · rw [if_neg hm] at hcount
      rw [if_neg hm]  -- the index-list if on the left
      rw [if_neg hm]  -- the cutoff if on the right
      rw [List.nil_append]
      have hbound : n - 1 < (toolMsgIndicesOf t).length := by
        rw [length_toolMsgIndicesOf]
        omega
      rw [List.getD_eq_getElem?_getD, List.getElem?_map,
        List.getElem?_eq_getElem hbound]
      simp only [Option.map_some', Option.getD_some]
      have := ih n h1 (by omega)
      rw [List.getD_eq_getElem?_getD, List.getElem?_eq_getElem hbound,
        Option.getD_some] at this
      omega


/-- **C4.** For every transcript, history compaction is a no-op when the
number of tool-result messages is at most `historyWindowSize`; otherwise,
when a summarizer is configured and succeeds (modelled by the summarize
function returning `some s`), the prefix ending one past the `excess`-th
tool-result message is replaced by a single user-role message whose
content is exactly `"[Context from earlier in this conversation: <summary>]"`,
and the remaining tail is the unchanged `drop` of the transcript (every
message unchanged, relative order kept). -/
theorem C4_compaction_noop_or_summary_replacement (w : Nat) (s : String)
    (h : List LLMMessage) :
    ((contextMessage s).role = .user ∧
      (contextMessage s).content =
        "[Context from earlier in this conversation: " ++ s ++ "]") ∧
    (toolCount h ≤ w → compressHistory w (fun _ => some s) h = h) ∧
    (w < toolCount h →
      compressHistory w (fun _ => some s) h =
        contextMessage s :: h.drop (cutoffAfterNthTool (toolCount h - w) h)) := by
  refine ⟨⟨rfl, rfl⟩, ?_, ?_⟩
  · intro hle
    unfold compressHistory
    dsimp only
    rw [if_pos (by rw [length_toolMsgIndicesOf]; exact hle)]
  · intro hgt
    have hlen := length_toolMsgIndicesOf h
    unfold compressHistory
    dsimp only
    rw [if_neg (by rw [length_toolMsgIndicesOf]; omega)]
    congr 1
    have hb : (toolMsgIndicesOf h).length - w - 1 < (toolMsgIndicesOf h).length := by
      omega
    have hmem : (toolMsgIndicesOf h).getD ((toolMsgIndicesOf h).length - w - 1) 0 ∈
        toolMsgIndicesOf h := by
      rw [List.getD_eq_getElem?_getD, List.getElem?_eq_getElem hb, Option.getD_some]
      exact List.getElem_mem hb
    have hlt := mem_toolMsgIndicesOf_lt h _ hmem
    rw [min_eq_left (by omega)]
    rw [hlen]
    rw [getD_toolMsgIndicesOf h (toolCount h - w) (by omega) (by omega)]


theorem C4_compaction_noop_or_summary_replacement_witness :
    (compressHistory 1 (fun _ => some "S")
      [⟨.user, "u", [], []⟩, ⟨.assistant, "a", [⟨"t", []⟩], []⟩,
       ⟨.tool, "", [], [⟨"t", "r", false⟩]⟩, ⟨.assistant, "a2", [⟨"t", []⟩], []⟩,
       ⟨.tool, "", [], [⟨"t", "r2", false⟩]⟩, ⟨.assistant, "done", [], []⟩] =
      contextMessage "S" ::
        List.drop (cutoffAfterNthTool (toolCount
            [⟨.user, "u", [], []⟩, ⟨.assistant, "a", [⟨"t", []⟩], []⟩,
             ⟨.tool, "", [], [⟨"t", "r", false⟩]⟩, ⟨.assistant, "a2", [⟨"t", []⟩], []⟩,
             ⟨.tool, "", [], [⟨"t", "r2", false⟩]⟩, ⟨.assistant, "done", [], []⟩] - 1)
          [⟨.user, "u", [], []⟩, ⟨.assistant, "a", [⟨"t", []⟩], []⟩,
           ⟨.tool, "", [], [⟨"t", "r", false⟩]⟩, ⟨.assistant, "a2", [⟨"t", []⟩], []⟩,
           ⟨.tool, "", [], [⟨"t", "r2", false⟩]⟩, ⟨.assistant, "done", [], []⟩])
          [⟨.user, "u", [], []⟩, ⟨.assistant, "a", [⟨"t", []⟩], []⟩,
           ⟨.tool, "", [], [⟨"t", "r", false⟩]⟩, ⟨.assistant, "a2", [⟨"t", []⟩], []⟩,
           ⟨.tool, "", [], [⟨"t", "r2", false⟩]⟩, ⟨.assistant, "done", [], []⟩]) ∧
    compressHistory 5 (fun _ => some "S")
      [⟨.user, "u", [], []⟩, ⟨.assistant, "done", [], []⟩] =
      [⟨.user, "u", [], []⟩, ⟨.assistant, "done", [], []⟩] := by
  constructor
  · exact (C4_compaction_noop_or_summary_replacement 1 "S" _).2.2 (by decide)
  · exact (C4_compaction_noop_or_summary_replacement 5 "S" _).2.1 (by decide)


/-! ### The pairing invariant is preserved by the loop -/

/-- An *Assistant* message with pending tool calls. -/
def dangling (m : LLMMessage) : Prop :=
  m.role = .assistant ∧ m.toolCalls.isEmpty = false

instance (m : LLMMessage) : Decidable (dangling m) := by
  unfold dangling
  infer_instance

theorem pairedOk_cons_of_not_dangling (m : LLMMessage) (t : List LLMMessage)
    (hm : ¬dangling m) : pairedOk (m :: t) = pairedOk t := by
  have hm' : ¬(m.role = .assistant ∧ m.toolCalls.isEmpty = false) := hm
  rw [pairedOk.eq_def]
  dsimp only
  rw [if_neg hm']

theorem pairedOk_singleton_of_dangling (m : LLMMessage) (hm : dangling m) :
    pairedOk [m] = false := by
  have hm' : m.role = .assistant ∧ m.toolCalls.isEmpty = false := hm
  rw [pairedOk.eq_def]
  dsimp only
  rw [if_pos hm']

theorem pairedOk_cons_cons_of_dangling (m m2 : LLMMessage) (t : List LLMMessage)
    (hm : dangling m) :
    pairedOk (m :: m2 :: t) =
      ((m2.role = .tool) && resultsMatch m.toolCalls m2.toolResults &&
        pairedOk (m2 :: t)) := by
  have hm' : m.role = .assistant ∧ m.toolCalls.isEmpty = false := hm
  rw [pairedOk.eq_def]
  dsimp only
  rw [if_pos hm']

theorem pairedOk_tail (m : LLMMessage) (t : List LLMMessage)
    (h : pairedOk (m :: t) = true) : pairedOk t = true := by
  by_cases hm : dangling m
  · cases t with
    | nil => rfl
    | cons m2 t' =>
      rw [pairedOk_cons_cons_of_dangling m m2 t' hm] at h
      simp only [Bool.and_eq_true] at h
      exact h.2
  · rw [pairedOk_cons_of_not_dangling m t hm] at h
    exact h

theorem pairedOk_drop (n : Nat) (h : List LLMMessage)
    (hok : pairedOk h = true) : pairedOk (h.drop n) = true := by
  induction n generalizing h with
  | zero => exact hok
  | succ n ih =>
    cases h with
    | nil => rfl
    | cons m t => exact ih t (pairedOk_tail m t hok)

theorem pairedOk_append_single (m : LLMMessage) (hm : ¬dangling m) :
    ∀ (h : List LLMMessage), pairedOk h = true → pairedOk (h ++ [m]) = true := by
  intro h
  induction h with
  | nil =>
    intro _
    rw [List.nil_append, pairedOk_cons_of_not_dangling m [] hm]
    rfl
  | cons x t ih =>
    intro hok
    rw [List.cons_append]
    by_cases hx : dangling x
    · cases t with
      | nil =>
        rw [pairedOk_singleton_of_dangling x hx] at hok
        exact absurd hok (by simp)
      | cons y t' =>
        rw [pairedOk_cons_cons_of_dangling x y t' hx] at hok
        simp only [Bool.and_eq_true] at hok
        rw [List.cons_append, pairedOk_cons_cons_of_dangling x y (t' ++ [m]) hx]
        rw [← List.cons_append, ih hok.2]
        simp [hok.1.1, hok.1.2]
    · rw [pairedOk_cons_of_not_dangling x (t ++ [m]) hx]
      rw [pairedOk_cons_of_not_dangling x t hx] at hok
      exact ih hok

theorem resultsMatch_self_names (f : ToolCall → String) (g : ToolCall → Bool) :
    ∀ (tcs : List ToolCall),
      resultsMatch tcs (tcs.map (fun tc => ToolResult.mk tc.name (f tc) (g tc))) = true := by
  intro tcs
  induction tcs with
  | nil => rfl
  | cons a l ih =>
    simp only [resultsMatch, List.map_cons, List.length_cons, List.length_map,
      List.zip_cons_cons, List.all_cons] at *
    simp_all
    exact ih

theorem pairedOk_append_pair (c : String) (tcs : List ToolCall)
    (trs : List ToolResult) (hmatch : resultsMatch tcs trs = true) :
    ∀ (h : List LLMMessage), pairedOk h = true →
      pairedOk (h ++ [{ role := .assistant, content := c, toolCalls := tcs },
        { role := .tool, content := "", toolResults := trs }]) = true := by
  intro h
  induction h with
  | nil =>
    intro _
    rw [List.nil_append]
    by_cases ha : dangling { role := Role.assistant, content := c, toolCalls := tcs :
        LLMMessage }
    · rw [pairedOk_cons_cons_of_dangling _ _ _ ha]
      have : pairedOk [{ role := Role.tool, content := "", toolResults := trs :
          LLMMessage }] = true := by
        rw [pairedOk_cons_of_not_dangling _ _ (by simp [dangling])]
        rfl
      simp [this, hmatch]
    · rw [pairedOk_cons_of_not_dangling _ _ ha]
      rw [pairedOk_cons_of_not_dangling _ _ (by simp [dangling])]
      rfl
  | cons x t ih =>
    intro hok
    rw [List.cons_append]
    by_cases hx : dangling x
    · cases t with
      | nil =>
        rw [pairedOk_singleton_of_dangling x hx] at hok
        exact absurd hok (by simp)
      | cons y t' =>
        rw [pairedOk_cons_cons_of_dangling x y t' hx] at hok
        simp only [Bool.and_eq_true] at hok
        rw [List.cons_append, pairedOk_cons_cons_of_dangling x y _ hx]
        rw [← List.cons_append, ih hok.2]
        simp [hok.1.1, hok.1.2]
    · rw [pairedOk_cons_of_not_dangling x _ hx]
      rw [pairedOk_cons_of_not_dangling x t hx] at hok
      exact ih hok

theorem truncateResult_name (tr : ToolResult) :
    (truncateResult tr).name = tr.name := by
  unfold truncateResult
  split <;> rfl

theorem resultsMatch_map_truncateResult (tcs : List ToolCall) (trs : List ToolResult) :
    resultsMatch tcs (trs.map truncateResult) = resultsMatch tcs trs := by
  unfold resultsMatch
  rw [List.length_map, List.zip_map_right, List.all_map]
  have hp : ((fun p : ToolCall × ToolResult => decide (p.2.name = p.1.name)) ∘
      Prod.map id truncateResult) =
      (fun p : ToolCall × ToolResult => decide (p.2.name = p.1.name)) := by
    funext p
    simp [Function.comp, truncateResult_name]
  rw [hp]

theorem truncateAt_cons (idxs : List Nat) (i : Nat) (m : LLMMessage)
    (t : List LLMMessage) :
    truncateAt idxs i (m :: t) =
      (if i ∈ idxs then { m with toolResults := m.toolResults.map truncateResult } else m)
        :: truncateAt idxs (i + 1) t := rfl

theorem pairedOk_truncateAt (idxs : List Nat) :
    ∀ (h : List LLMMessage) (i : Nat), pairedOk h = true →
      pairedOk (truncateAt idxs i h) = true := by
  intro h
  induction h with
  | nil => intro i _; rfl
  | cons m t ih =>
    intro i hok
    rw [truncateAt_cons]
    have hrole : (if i ∈ idxs then
        { m with toolResults := m.toolResults.map truncateResult } else m).role
        = m.role := by split <;> rfl
    have htc : (if i ∈ idxs then
        { m with toolResults := m.toolResults.map truncateResult } else m).toolCalls
        = m.toolCalls := by split <;> rfl
    generalize hg : (if i ∈ idxs then
        { m with toolResults := m.toolResults.map truncateResult } else m) = m1
    rw [hg] at hrole htc
    by_cases hd : dangling m
    · have hd1 : dangling m1 := by
        unfold dangling at hd ⊢
        rw [hrole, htc]
        exact hd
      cases t with
      | nil =>
        rw [pairedOk_singleton_of_dangling m hd] at hok
        exact absurd hok (by simp)
      | cons m2 t2 =>
        rw [pairedOk_cons_cons_of_dangling m m2 t2 hd] at hok
        simp only [Bool.and_eq_true, decide_eq_true_eq] at hok
        have hrest : pairedOk (truncateAt idxs (i + 1) (m2 :: t2)) = true :=
          ih (i + 1) hok.2
        rw [truncateAt_cons] at hrest ⊢
        have hrole2 : (if i + 1 ∈ idxs then
            { m2 with toolResults := m2.toolResults.map truncateResult } else m2).role
            = m2.role := by split <;> rfl
        have hrm2 : resultsMatch m.toolCalls (if i + 1 ∈ idxs then
            { m2 with toolResults := m2.toolResults.map truncateResult } else m2).toolResults
            = resultsMatch m.toolCalls m2.toolResults := by
          split
        --  the modified batch keeps every result name and the length
          · exact resultsMatch_map_truncateResult _ _
          · rfl
        generalize hg2 : (if i + 1 ∈ idxs then
            { m2 with toolResults := m2.toolResults.map truncateResult } else m2) = m3
        rw [hg2] at hrole2 hrm2 hrest
        rw [pairedOk_cons_cons_of_dangling m1 m3 _ hd1]
        rw [hrole2, htc, hrm2, hok.1.2, hrest]
        simp [hok.1.1]
    · have hd1 : ¬dangling m1 := by
        unfold dangling at hd ⊢
        rw [hrole, htc]
        exact hd
      rw [pairedOk_cons_of_not_dangling m1 _ hd1]
      rw [pairedOk_cons_of_not_dangling m t hd] at hok
      exact ih (i + 1) hok

theorem pairedOk_compressHistory (w : Nat)
    (summarize : List LLMMessage → Option String) (h : List LLMMessage)
    (hok : pairedOk h = true) :
    pairedOk (compressHistory w summarize h) = true := by
  unfold compressHistory
  dsimp only
  split
  · exact hok
  · split
    · rw [pairedOk_cons_of_not_dangling _ _ (by simp [dangling, contextMessage])]
      exact pairedOk_drop _ h hok
    · exact pairedOk_truncateAt _ h 0 hok

theorem pairedOk_runLoop (cfg : AgentConfig) (provider : Nat → LLMResponse)
    (exec : ToolCall → ToolExecutionResult)
    (summarize : List LLMMessage → Option String) :
    ∀ (fuel callIdx : Nat) (history : List LLMMessage) (fp : String) (rc : Nat),
      pairedOk history = true →
      pairedOk (runLoop cfg provider exec summarize fuel callIdx history fp rc).1 = true := by
  intro fuel
  induction fuel with
  | zero => intro callIdx history fp rc hok; exact hok
  | succ fuel ih =>
    intro callIdx history fp rc hok
    rw [runLoop]
    dsimp only
    split
    · split
      · dsimp only
        exact pairedOk_append_single _ (by simp [dangling]) _
          (pairedOk_append_single _ (by simp [dangling]) history hok)
      · refine ih _ _ _ _ ?_
        refine pairedOk_compressHistory _ _ _ ?_
        exact pairedOk_append_pair _ _ _
          (resultsMatch_self_names (fun tc => (exec tc).output)
            (fun tc => (exec tc).isError) _) history hok
    · exact pairedOk_append_single _ (by simp [dangling]) history hok

/-- **C1.** For every agent configuration, every sequence of provider
responses, every tool behavior and every summarizer behavior, the
transcript returned by `Agent.processMessage` satisfies the pairing
invariant — every *Assistant* message with non-empty `toolCalls` is
immediately followed by a tool-role message whose `toolResults` have the
same length and carry, entry by entry, the names of the tool calls —
provided the incoming transcript satisfied it; moreover the invariant is
preserved by every iteration of the loop (any fuel, call index,
fingerprint and repetition count) and by history compaction alone. -/
theorem C1_processMessage_preserves_pairing (cfg : AgentConfig)
    (provider : Nat → LLMResponse) (exec : ToolCall → ToolExecutionResult)
    (summarize : List LLMMessage → Option String)
    (history : List LLMMessage) (userMessage : String)
    (hok : pairedOk history = true) :
    pairedOk (processMessage cfg provider exec summarize history userMessage).1 = true ∧
    (∀ (fuel callIdx : Nat) (h : List LLMMessage) (fp : String) (rc : Nat),
        pairedOk h = true →
        pairedOk (runLoop cfg provider exec summarize fuel callIdx h fp rc).1 = true) ∧
    (∀ (w : Nat) (h : List LLMMessage), pairedOk h = true →
        pairedOk (compressHistory w summarize h) = true) := by
  refine ⟨?_, pairedOk_runLoop cfg provider exec summarize,
    fun w h hh => pairedOk_compressHistory w summarize h hh⟩
  unfold processMessage
  exact pairedOk_runLoop cfg provider exec summarize _ _ _ _ _
    (pairedOk_append_single _ (by simp [dangling]) history hok)

theorem C1_processMessage_preserves_pairing_witness :
    pairedOk ([⟨.user, "hi", [], []⟩, ⟨.assistant, "old", [⟨"read_file", []⟩], []⟩,
      ⟨.tool, "", [], [⟨"read_file", "contents", false⟩]⟩] : List LLMMessage) = true ∧
    pairedOk (processMessage ⟨5, false, 3, 10⟩
      (fun i => if i = 0 then ⟨"calling", [⟨"read_file", []⟩], .tool_calls⟩
        else ⟨"done", [], .stop⟩)
      (fun _ => ⟨"ok", false⟩) (fun _ => none)
      [⟨.user, "hi", [], []⟩, ⟨.assistant, "old", [⟨"read_file", []⟩], []⟩,
       ⟨.tool, "", [], [⟨"read_file", "contents", false⟩]⟩] "next").1 = true :=
  ⟨by decide,
    (C1_processMessage_preserves_pairing ⟨5, false, 3, 10⟩
      (fun i => if i = 0 then ⟨"calling", [⟨"read_file", []⟩], .tool_calls⟩
        else ⟨"done", [], .stop⟩)
      (fun _ => ⟨"ok", false⟩) (fun _ => none)
      [⟨.user, "hi", [], []⟩, ⟨.assistant, "old", [⟨"read_file", []⟩], []⟩,
       ⟨.tool, "", [], [⟨"read_file", "contents", false⟩]⟩] "next" (by decide)).1⟩

end CodingAgent
